import Mathlib

/-!
# The apply tactic and function information

Sources: `src/library/tactic/apply_tactic.cpp` and `src/library/fun_info_manager.h`.

A shallow embedding of `apply_tactic` and of the proof builder it installs,
followed by the classes `param_info` and `fun_info` and a model of the
analyzer `fun_info_manager`, whose member functions are only declared in the
header.

* Terms, names, goals and proof states are concrete data.
* The kernel and library services the tactic calls but which live in other
  files (`fo_unify`, `instantiate`, `is_flex_proposition`, the metavariable
  environment, `Fun`, `mk_app`, ...) are the fields of `Collab`; every general
  theorem below holds for all of them.
* `sampleK` is one small executable choice of these services, used to
  evaluate the tactic on concrete proof states.

Machine integers: `num`, `new_goal_idx` and the placeholder index are C++
`unsigned`; they are counted in `Nat` here, i.e. the development is about
facts with fewer than `2^32` leading binders.  `check_interrupted()` is the
identity on an uninterrupted run and is not represented; likewise the
services of `Collab` are total functions, a run in which one of them throws
is not represented.  The exception thrown by `find` inside the proof builder
is represented, by `none`.
-/

set_option autoImplicit false

/-! ## Names and terms -/

/-- Modelled from the spec: names ("hierarchical identifier"), declared in
`util/name.h`: the anonymous name, or a parent name extended by a string or
by a number, as built by `name(parent, "s")` and `name(parent, i)`. -/
inductive name where
  | anonymous : name
  | str (p : name) (s : String) : name
  | num (p : name) (k : Nat) : name
  deriving DecidableEq

/-- Modelled from the spec: the term model ("opaque expression trees with
variants for bound/local variables, constants, applications, binders
(Pi/lambda), metavariables, sorts"); the class `expr` itself is declared in
the kernel, not in the tactic.  A constant may carry its type, as
`mk_constant(n, d)` attaches one. -/
inductive expr where
  | var (i : Nat) : expr
  | constant (n : name) : expr
  | constant_typed (n : name) (t : expr) : expr
  | app (f a : expr) : expr
  | lambda (n : name) (d b : expr) : expr
  | pi (n : name) (d b : expr) : expr
  | type : expr
  | metavar (n : name) : expr
  deriving DecidableEq

/-- The test `is_pi(e)`. -/
def is_pi : expr → Bool
  | .pi _ _ _ => true
  | _ => false

/-- The accessor `abst_name(e)`; only called on binders. -/
def abst_name : expr → name
  | .pi n _ _ => n
  | .lambda n _ _ => n
  | _ => name.anonymous

/-- The accessor `abst_domain(e)`; only called on binders. -/
def abst_domain : expr → expr
  | .pi _ d _ => d
  | .lambda _ d _ => d
  | e => e

/-- The accessor `abst_body(e)`; only called on binders. -/
def abst_body : expr → expr
  | .pi _ _ b => b
  | .lambda _ _ b => b
  | e => e

/-- The constructor `mk_constant(n)`. -/
def mk_constant (n : name) : expr := expr.constant n

/-- The constructor `mk_constant(n, d)`. -/
def mk_constant_typed (n : name) (d : expr) : expr := expr.constant_typed n d

/-- The constructor `mk_metavar(n)`. -/
def mk_metavar (n : name) : expr := expr.metavar n

/-- The counter `num` after the loop of lines 33-36: the number of leading
Pi binders. -/
def count_pis : expr → Nat
  | .pi _ _ b => count_pis b + 1
  | _ => 0

/-- The term `th_type_c` after the loop of lines 33-36: all leading Pi
binders stripped. -/
def strip_pis : expr → expr
  | .pi _ _ b => strip_pis b
  | e => e

/-! ## Goals, proof maps, proof states -/

/-- Hypotheses of a goal: `list<pair<name, expr>>`. -/
abbrev hypotheses := List (name × expr)

/-- Modelled from the spec: a goal ("hypotheses: ordered sequence of
(name, type), conclusion: Term"), declared in `goal.h`; the fields are named
after its accessors. -/
structure goal where
  get_hypotheses : hypotheses
  get_conclusion : expr
  deriving DecidableEq

/-- The goals of a proof state, `list<pair<name, goal>>`, in order. -/
abbrev goals := List (name × goal)

/-- Modelled from the spec: the precision marker of a proof state
("one of Precise, Over, UnderOver"); the enumeration is declared in
`proof_state.h`. -/
inductive precision where
  | Precise : precision
  | Over : precision
  | UnderOver : precision
  deriving DecidableEq

/-- How weak a precision is, along `Precise → Over → UnderOver`. -/
def precision.weakness : precision → Nat
  | .Precise => 0
  | .Over => 1
  | .UnderOver => 2

/-- Modelled from the spec: the proof map ("the eventual map from subgoal
name to proof term"), declared in `proof_builder.h`. -/
abbrev proof_map := name → Option expr

/-- The lookup `find(m, n)`; it throws when `n` has no proof, which is the
result `none` here. -/
def find (m : proof_map) (n : name) : Option expr := m n

/-- The update `m.erase(n)`. -/
def proof_map.erase (m : proof_map) (n : name) : proof_map :=
  fun x => if x = n then none else m x

/-- The update `m.insert(n, e)`. -/
def proof_map.insert (m : proof_map) (n : name) (e : expr) : proof_map :=
  fun x => if x = n then some e else m x

/-- The services `apply_tactic` calls that are defined elsewhere in the
system, with the types of the values they exchange.  The last field is the
one fact about `instantiate` the embedding relies on for the loop of lines
82-88 to be a terminating recursion: substituting a constant for the bound
variable of a body leaves the number of leading Pi binders unchanged. -/
structure Collab where
  Env : Type
  Menv : Type
  Subst : Type
  Assignment : Type
  Cex : Type
  g_tmp_mvar_name : name
  fo_unify : expr → expr → Option Subst
  apply : Subst → expr → expr
  instantiate : expr → List expr → Menv → expr
  is_flex_proposition : Env → expr → Menv → Bool
  menv_mk_metavar : Menv → expr → expr × Menv
  arg_to_hypothesis_name : name → expr → Env → Menv → name
  add_hypothesis : hypotheses → name → expr → name × hypotheses
  Fun : name → expr → expr → expr
  mk_app : List expr → expr
  instantiate_constant_pis : ∀ (b : expr) (n : name) (d : expr) (menv : Menv),
    count_pis (instantiate b [mk_constant_typed n d] menv) = count_pis b

/-- Modelled from the spec: a proof builder ("a deferred pure function
(subgoalProofs, finalAssignment) → Term"), declared in `proof_builder.h`;
`none` stands for a thrown exception. -/
abbrev proof_builder (K : Collab) := proof_map → K.Assignment → Option expr

/-- Modelled from the spec: a proof state (precision, goals, metavariable
environment, proof builder, counterexample builder), declared in
`proof_state.h`; the fields are named after its accessors. -/
structure proof_state (K : Collab) where
  get_precision : precision
  get_goals : goals
  get_menv : K.Menv
  get_proof_builder : proof_builder K
  get_cex_builder : K.Cex

/-! ## The tactic -/

/-- The type `proposition_arg`: the name of a spawned subgoal and the extra
hypotheses its proof is abstracted over. -/
abbrev proposition_arg := name × hypotheses

/-- The type `arg_list`: one pair of optionals per recorded argument. -/
abbrev arg_list := List (Option expr × Option proposition_arg)

/-- The buffer `mvars` of lines 37-39. -/
def mk_mvars (K : Collab) (num : Nat) : List expr :=
  (List.range num).map (fun i => mk_metavar (name.num K.g_tmp_mvar_name i))

/-- The value of `th_type_c` after line 41: the conclusion of the fact, its
binders replaced by the placeholder metavariables. -/
def th_body (K : Collab) (menv : K.Menv) (th_type : expr) : expr :=
  K.instantiate (strip_pis th_type) (mk_mvars K (count_pis th_type)) menv

/-- The variables of the loop of lines 82-88. -/
structure open_state where
  hs : hypotheses
  extra_hs : hypotheses
  arg_type : expr
  deriving DecidableEq

/-- The loop of lines 82-88, `while (is_pi(arg_type))`.  The first argument
bounds the number of iterations; it is called with `count_pis arg_type`,
which is exactly the number of iterations the loop makes
(see `open_binders_not_pi`). -/
def open_binders (K : Collab) (env : K.Env) (menv : K.Menv) :
    Nat → open_state → open_state
  | fuel + 1, ⟨hs, extra_hs, .pi x d b⟩ =>
    let n := K.arg_to_hypothesis_name x d env menv
    let r := K.add_hypothesis hs n d
    open_binders K env menv fuel
      ⟨r.2, (r.1, d) :: extra_hs, K.instantiate b [mk_constant_typed r.1 d] menv⟩
  | _, st => st

/-- The variables of the loop of lines 69-101 over the placeholders. -/
structure walk_state (K : Collab) where
  l : arg_list
  th_type_c : expr
  new_goal_idx : Nat
  new_goals_buf : goals
  new_menv : K.Menv

/-- The body of the loop of lines 69-101, for one placeholder `mvar`. -/
def walk_step (K : Collab) (env : K.Env) (subst : K.Subst) (gname : name) (g : goal)
    (st : walk_state K) (mvar : expr) : walk_state K :=
  let mvar_sol := K.apply subst mvar
  if mvar_sol ≠ mvar then
    { st with
      l := (some mvar_sol, none) :: st.l
      th_type_c := K.instantiate (abst_body st.th_type_c) [mvar_sol] st.new_menv }
  else
    let arg_type := abst_domain st.th_type_c
    if K.is_flex_proposition env arg_type st.new_menv then
      let new_gname := name.num gname st.new_goal_idx
      let r := open_binders K env st.new_menv (count_pis arg_type) ⟨g.get_hypotheses, [], arg_type⟩
      { l := (none, some (new_gname, r.extra_hs)) :: st.l
        th_type_c := K.instantiate (abst_body st.th_type_c)
          [mk_constant_typed new_gname r.arg_type] st.new_menv
        new_goal_idx := st.new_goal_idx + 1
        new_goals_buf := st.new_goals_buf ++ [(new_gname, ⟨r.hs, r.arg_type⟩)]
        new_menv := st.new_menv }
    else
      let r := K.menv_mk_metavar st.new_menv arg_type
      { st with
        l := (some r.1, none) :: st.l
        th_type_c := K.instantiate (abst_body st.th_type_c) [r.1] r.2
        new_menv := r.2 }

/-- The loop of lines 69-101. -/
def walk (K : Collab) (env : K.Env) (subst : K.Subst) (gname : name) (g : goal)
    (st : walk_state K) (mvars : List expr) : walk_state K :=
  mvars.foldl (walk_step K env subst gname g) st

/-- The variables of the loop of lines 57-109 over the goals. -/
structure loop_state (K : Collab) where
  th_type_c : expr
  found : Bool
  new_goals_buf : goals
  proof_info : List (name × arg_list)
  new_menv : K.Menv

/-- The state of the placeholder walk at its start (lines 66-68). -/
def walk_init (K : Collab) (th_type : expr) (st : loop_state K) : walk_state K :=
  { l := []
    th_type_c := th_type
    new_goal_idx := 1
    new_goals_buf := st.new_goals_buf
    new_menv := st.new_menv }

/-- The body of the loop of lines 57-109, for one goal `p`. -/
def goal_step (K : Collab) (env : K.Env) (th_type : expr) (mvars : List expr) (all : Bool)
    (st : loop_state K) (p : name × goal) : loop_state K :=
  if all || !st.found then
    match K.fo_unify st.th_type_c p.2.get_conclusion with
    | some subst =>
      let w := walk K env subst p.1 p.2 (walk_init K th_type st) mvars
      { th_type_c := w.th_type_c
        found := true
        new_goals_buf := w.new_goals_buf
        proof_info := (p.1, w.l) :: st.proof_info
        new_menv := w.new_menv }
    | none => { st with new_goals_buf := st.new_goals_buf ++ [p] }
  else
    { st with new_goals_buf := st.new_goals_buf ++ [p] }

/-- The state of the goal loop at its start (lines 31-56). -/
def loop_init (K : Collab) (menv : K.Menv) (th_type : expr) : loop_state K :=
  { th_type_c := th_body K menv th_type
    found := false
    new_goals_buf := []
    proof_info := []
    new_menv := menv }

/-- Lines 31-109: the state of the goal loop at its end. -/
def apply_loop (K : Collab) (env : K.Env) (s : proof_state K) (th_type : expr) (all : Bool) :
    loop_state K :=
  s.get_goals.foldl (goal_step K env th_type (mk_mvars K (count_pis th_type)) all)
    (loop_init K s.get_menv th_type)

/-- The loop of lines 128-129: the proof of a subgoal abstracted over the
recorded extra hypotheses, taken in list order. -/
def abstract_extra (K : Collab) (extra_hs : hypotheses) (pr : expr) : expr :=
  extra_hs.foldl (fun pr p => K.Fun p.1 p.2 pr) pr

/-- The body of the loop of lines 119-133, for one recorded argument: the
buffer `args` and the map `new_m` after it.  The result is `none` when
`find` throws, or when the second optional is dereferenced while empty. -/
def pb_arg_step (K : Collab) (m : proof_map) (st : List expr × proof_map)
    (p2 : Option expr × Option proposition_arg) : Option (List expr × proof_map) :=
  match p2.1 with
  | some arg => some (st.1 ++ [arg], st.2)
  | none =>
    match p2.2 with
    | none => none
    | some parg =>
      match find m parg.1 with
      | none => none
      | some pr => some (st.1 ++ [abstract_extra K parg.2 pr], st.2.erase parg.1)

/-- The loop of lines 119-133. -/
def pb_args (K : Collab) (m : proof_map) :
    arg_list → List expr × proof_map → Option (List expr × proof_map)
  | [], st => some st
  | p2 :: l, st =>
    match pb_arg_step K m st p2 with
    | none => none
    | some st1 => pb_args K m l st1

/-- The call `std::reverse(args.begin() + 1, args.end())` of line 134. -/
def reverse_from_1 : List expr → List expr
  | [] => []
  | a :: as => a :: as.reverse

/-- The body of the loop of lines 114-136, for one solved goal `p1`. -/
def pb_goal_step (K : Collab) (th : expr) (m : proof_map) (new_m : proof_map)
    (p1 : name × arg_list) : Option proof_map :=
  match pb_args K m p1.2 ([th], new_m) with
  | none => none
  | some r => some (r.2.insert p1.1 (K.mk_app (reverse_from_1 r.1)))

/-- The loop of lines 114-136: the map `new_m` handed to the previous
proof builder. -/
def pb_goals (K : Collab) (th : expr) (m : proof_map) :
    List (name × arg_list) → proof_map → Option proof_map
  | [], new_m => some new_m
  | p1 :: rest, new_m =>
    match pb_goal_step K th m new_m p1 with
    | none => none
    | some new_m1 => pb_goals K th m rest new_m1

/-- The proof builder of lines 112-138. -/
def new_pb (K : Collab) (pb : proof_builder K) (th : expr)
    (proof_info : List (name × arg_list)) : proof_builder K :=
  fun m a =>
    match pb_goals K th m proof_info m with
    | none => none
    | some new_m => pb new_m a

/-- The term-based `apply_tactic(env, s, th, th_type, all)` of lines 24-144. -/
def apply_tactic (K : Collab) (env : K.Env) (s : proof_state K) (th th_type : expr)
    (all : Bool) : Option (proof_state K) :=
  if s.get_precision ≠ precision.Precise ∧ s.get_precision ≠ precision.Over then
    none
  else
    let r := apply_loop K env s th_type all
    if r.found then
      some
        { get_precision := precision.Over
          get_goals := r.new_goals_buf
          get_menv := r.new_menv
          get_proof_builder := new_pb K s.get_proof_builder th r.proof_info
          get_cex_builder := s.get_cex_builder }
    else
      none

/-! ## One executable choice of the external services -/

/-- Sample term substitution: the bound variables `offset, ..., offset + n - 1`
of `e` are replaced by `args[n-1], ..., args[0]` (closed terms), and the
variables above them are lowered by `n`. -/
def sample_instantiate_at (args : List expr) : Nat → expr → expr
  | offset, .var i =>
    if i < offset then expr.var i
    else if i - offset < args.length then
      (args.reverse.get? (i - offset)).getD (expr.var i)
    else expr.var (i - args.length)
  | offset, .app f a =>
    expr.app (sample_instantiate_at args offset f) (sample_instantiate_at args offset a)
  | offset, .lambda n d b =>
    expr.lambda n (sample_instantiate_at args offset d) (sample_instantiate_at args (offset + 1) b)
  | offset, .pi n d b =>
    expr.pi n (sample_instantiate_at args offset d) (sample_instantiate_at args (offset + 1) b)
  | _, e => e

/-- Sample substitutions: association lists from metavariable names to terms. -/
abbrev sample_subst := List (name × expr)

/-- Sample lookup of a metavariable in a substitution. -/
def sample_lookup (n : name) : sample_subst → Option expr
  | [] => none
  | (k, v) :: rest => if k = n then some v else sample_lookup n rest

/-- Sample first-order unification of a pattern with a term, extending a
substitution: a metavariable of the pattern is bound to the term facing it
(or must already be bound to it), and otherwise the two terms must have the
same shape. -/
def sample_unify : expr → expr → sample_subst → Option sample_subst
  | .metavar n, e, s =>
    match sample_lookup n s with
    | some v => if v = e then some s else none
    | none => if e = expr.metavar n then some s else some ((n, e) :: s)
  | .app f a, .app f1 a1, s =>
    match sample_unify f f1 s with
    | some s1 => sample_unify a a1 s1
    | none => none
  | .lambda _ d b, .lambda _ d1 b1, s =>
    match sample_unify d d1 s with
    | some s1 => sample_unify b b1 s1
    | none => none
  | .pi _ d b, .pi _ d1 b1, s =>
    match sample_unify d d1 s with
    | some s1 => sample_unify b b1 s1
    | none => none
  | e, e1, s => if e = e1 then some s else none

/-- Sample application of a substitution to a term. -/
def sample_apply (s : sample_subst) : expr → expr
  | .metavar n => (sample_lookup n s).getD (expr.metavar n)
  | .app f a => expr.app (sample_apply s f) (sample_apply s a)
  | .lambda n d b => expr.lambda n (sample_apply s d) (sample_apply s b)
  | .pi n d b => expr.pi n (sample_apply s d) (sample_apply s b)
  | e => e

/-- Sample head symbol of a term. -/
def sample_head : expr → expr
  | .app f _ => sample_head f
  | e => e

/-- Sample test for flexible propositions: the environment lists the
constants that are propositions or predicates, and a type is a flexible
proposition when, under its leading Pi binders, its head is one of them. -/
def sample_is_flex_proposition (env : List name) (t : expr) : Bool :=
  match sample_head (strip_pis t) with
  | .constant n => decide (n ∈ env)
  | _ => false

/-- Sample n-ary application. -/
def sample_mk_app : List expr → expr
  | [] => expr.type
  | f :: as => as.foldl expr.app f

/-- The sample services: the environment is the list of propositional
constants, the metavariable environment is a counter of allocated
metavariables, hypothesis names are taken as suggested. -/
def sampleK : Collab where
  Env := List name
  Menv := Nat
  Subst := sample_subst
  Assignment := Unit
  Cex := Unit
  g_tmp_mvar_name := name.str name.anonymous "tmp"
  fo_unify := fun e1 e2 => sample_unify e1 e2 []
  apply := sample_apply
  instantiate := fun e args _ => sample_instantiate_at args 0 e
  is_flex_proposition := fun env t _ => sample_is_flex_proposition env t
  menv_mk_metavar := fun menv _ =>
    (expr.metavar (name.num (name.str name.anonymous "m") menv), menv + 1)
  arg_to_hypothesis_name := fun x _ _ _ => x
  add_hypothesis := fun hs n d => (n, (n, d) :: hs)
  Fun := fun n d b => expr.lambda n d b
  mk_app := sample_mk_app
  instantiate_constant_pis := fun b n d _ => by
    have h : ∀ offset : Nat,
        count_pis (sample_instantiate_at [mk_constant_typed n d] offset b) = count_pis b := by
      induction b with
      | var i =>
        intro offset
        simp only [sample_instantiate_at]
        split
        · rfl
        · split
          · have h0 : i - offset = 0 := by simp_all
            simp [h0, mk_constant_typed, count_pis]
          · rfl
      | pi x t b _ ihb => intro offset; simp [sample_instantiate_at, count_pis, ihb]
      | _ => intro offset; simp [sample_instantiate_at, count_pis]
    exact h 0

/-! ## Notions used to state the properties of the tactic -/

/-- The subgoals the placeholder walk spawns for the goal `gname`, in the
order in which it appends them to the goal buffer. -/
def spawned_subgoals (K : Collab) (env : K.Env) (menv : K.Menv) (th_type : expr)
    (subst : K.Subst) (gname : name) (g : goal) : goals :=
  (walk K env subst gname g
    { l := [], th_type_c := th_type, new_goal_idx := 1, new_goals_buf := [], new_menv := menv }
    (mk_mvars K (count_pis th_type))).new_goals_buf

/-- The entry recorded for the parameter at position `i`: the head of the
recorded list right after the walk has processed the placeholders
`0, ..., i`. -/
def recorded_at (K : Collab) (env : K.Env) (subst : K.Subst) (gname : name) (g : goal)
    (st0 : walk_state K) (mvars : List expr) (i : Nat) :
    Option (Option expr × Option proposition_arg) :=
  (walk K env subst gname g st0 (mvars.take (i + 1))).l.head?

/-- The argument that stands for one recorded entry: its resolved value, or
the proof of its subgoal found in `m` and abstracted over the extra
hypotheses. -/
def arg_value (K : Collab) (m : proof_map) (p2 : Option expr × Option proposition_arg) :
    Option expr :=
  match p2.1 with
  | some arg => some arg
  | none =>
    match p2.2 with
    | none => none
    | some parg =>
      match find m parg.1 with
      | none => none
      | some pr => some (abstract_extra K parg.2 pr)

/-- The arguments that stand for a list of entries, in the order of the
list; there are none when one of the subgoal proofs is missing. -/
def arg_values (K : Collab) (m : proof_map) : arg_list → Option (List expr)
  | [] => some []
  | p2 :: l =>
    match arg_value K m p2, arg_values K m l with
    | some a, some as => some (a :: as)
    | _, _ => none

/-- The names of the subgoals referred to by a list of entries. -/
def consumed_names : arg_list → List name
  | [] => []
  | (some _, _) :: l => consumed_names l
  | (none, some parg) :: l => parg.1 :: consumed_names l
  | (none, none) :: l => consumed_names l

/-- The map `m` without the entries of the names `ns`. -/
def erase_names (m : proof_map) (ns : List name) : proof_map :=
  fun x => if x ∈ ns then none else m x

/-- The hypotheses opened by the loop of lines 82-88, listed in the order in
which they are introduced. -/
def opened_hyps (K : Collab) (env : K.Env) (menv : K.Menv) :
    Nat → hypotheses → expr → hypotheses
  | fuel + 1, hs, .pi x d b =>
    let n := K.arg_to_hypothesis_name x d env menv
    let r := K.add_hypothesis hs n d
    (r.1, d) :: opened_hyps K env menv fuel r.2 (K.instantiate b [mk_constant_typed r.1 d] menv)
  | _, _, _ => []

/-- The nest `Fun n1 d1 (Fun n2 d2 (... (Fun nk dk pr)))` for the hypotheses
`(n1, d1), ..., (nk, dk)`. -/
def nest_Fun (K : Collab) : hypotheses → expr → expr
  | [], pr => pr
  | (n, d) :: rest, pr => K.Fun n d (nest_Fun K rest pr)

/-- The application reconstructed for a solved goal from its recorded list
`l` (which is in reverse parameter order): the fact applied to the arguments
in parameter order. -/
def reconstructed (K : Collab) (th : expr) (m : proof_map) (l : arg_list) : Option expr :=
  match arg_values K m l.reverse with
  | none => none
  | some args => some (K.mk_app (th :: args))

/-- The recorded list of the solved goal `n` in a reconstruction plan. -/
def plan_find (n : name) : List (name × arg_list) → Option arg_list
  | [] => none
  | p1 :: rest => if p1.1 = n then some p1.2 else plan_find n rest

/-- The names of the subgoals consumed by a reconstruction plan. -/
def plan_consumed : List (name × arg_list) → List name
  | [] => []
  | p1 :: rest => consumed_names p1.2 ++ plan_consumed rest

/-- Whether every solved goal of the plan can be reconstructed from `m`. -/
def plan_ok (K : Collab) (th : expr) (m : proof_map) (plan : List (name × arg_list)) : Bool :=
  plan.all (fun p1 => (reconstructed K th m p1.2).isSome)

/-- The map `new_m` with every solved goal of the plan bound to its
application, reconstructed from the subgoal proofs of `m`, and every
consumed subgoal entry removed. -/
def overlay_map (K : Collab) (th : expr) (plan : List (name × arg_list)) (m new_m : proof_map) :
    proof_map :=
  fun n =>
    match plan_find n plan with
    | some l => reconstructed K th m l
    | none => if n ∈ plan_consumed plan then none else new_m n

/-- The updated map of the specification: `m` with every solved goal of the
plan bound to its reconstructed application and every consumed subgoal entry
removed, the subgoal proofs being looked up in `m`; there is none when a
subgoal proof is missing in `m`. -/
def updated_map (K : Collab) (th : expr) (plan : List (name × arg_list)) (m : proof_map) :
    Option proof_map :=
  if plan_ok K th m plan then some (overlay_map K th plan m m) else none

/-- The naive, non-deferred reconstruction over two applications: the
subgoal proofs are substituted into the second plan, and the resulting
proofs into the first plan. -/
def naive_reconstruction (K : Collab) (th1 : expr) (plan1 : List (name × arg_list))
    (th2 : expr) (plan2 : List (name × arg_list)) (m : proof_map) : Option proof_map :=
  match updated_map K th2 plan2 m with
  | none => none
  | some m1 => updated_map K th1 plan1 m1

/-- The entry `e` of a reconstruction plan was recorded by the placeholder
walk for a goal of `gs` that carries the name of the entry, started at the
fact's type with an empty list. -/
def from_walk (K : Collab) (env : K.Env) (th_type : expr) (mvars : List expr) (gs : goals)
    (e : name × arg_list) : Prop :=
  ∃ (g : goal) (subst : K.Subst) (st0 : walk_state K),
    (e.1, g) ∈ gs ∧ st0.l = [] ∧ st0.th_type_c = th_type ∧ st0.new_goal_idx = 1 ∧
      e.2 = (walk K env subst e.1 g st0 mvars).l

/-- Exactly one of the two optionals of a recorded entry is populated. -/
def one_populated (e : Option expr × Option proposition_arg) : Bool :=
  e.1.isSome != e.2.isSome

/-- The type left by the loop of lines 82-88: the domain type after its
leading Pi binders have been opened, one by one, on the hypotheses
introduced for them. -/
def opened_type (K : Collab) (env : K.Env) (menv : K.Menv) : Nat → hypotheses → expr → expr
  | fuel + 1, hs, .pi x d b =>
    let n := K.arg_to_hypothesis_name x d env menv
    let r := K.add_hypothesis hs n d
    opened_type K env menv fuel r.2 (K.instantiate b [mk_constant_typed r.1 d] menv)
  | _, _, t => t

/-- Modelled from the spec: what the functor `update_hypotheses_fn` (declared
in `goal.h`) does to its hypotheses when it is called on a suggested name and
a type ("extend the current goal's hypotheses with the newly opened extra
hypotheses, each hypothesis name chosen to avoid collision with existing
ones"): the hypothesis, under the name it returns, is put in front of the
hypotheses it holds. -/
def add_hypothesis_extends (K : Collab) : Prop :=
  ∀ (hs : hypotheses) (n : name) (d : expr),
    (K.add_hypothesis hs n d).2 = ((K.add_hypothesis hs n d).1, d) :: hs

/-- Modelled from the spec: the metavariables allocated by the metavariable
environment are not the placeholders of the tactic ("allocate a genuinely
fresh metavariable (distinct from the unification placeholders)"); the
placeholders are named after the internal unique name `g_tmp_mvar_name`. -/
def menv_mk_metavar_fresh (K : Collab) : Prop :=
  ∀ (menv : K.Menv) (t : expr) (i : Nat),
    (K.menv_mk_metavar menv t).1 ≠ mk_metavar (name.num K.g_tmp_mvar_name i)

/-! ## The name-based tactic -/

/-- Modelled from the spec: an object of the environment ("looks up
`factName` in the environment; requires the resolved object to be a theorem
or axiom ... that object's statement and type"), declared in
`kernel/object.h`; the fields are named after its accessors. -/
structure object where
  is_theorem : Bool
  is_axiom : Bool
  get_type : expr
  deriving DecidableEq

/-- The name-based `apply_tactic(th_name, all)` of lines 152-160 (the C++
overload of `apply_tactic`); `find_object` is `env->find_object`. -/
def apply_tactic_by_name (K : Collab) (find_object : K.Env → name → Option object)
    (env : K.Env) (s : proof_state K) (th_name : name) (all : Bool) : Option (proof_state K) :=
  match find_object env th_name with
  | some obj =>
    if object.is_theorem obj || object.is_axiom obj then
      apply_tactic K env s (mk_constant th_name) (object.get_type obj) all
    else
      none
  | none => none

/-! ## The metavariable environment as a shared, mutable object -/

/-- Modelled from the spec: the store of metavariable environments ("the
metavariable environment uses copy-on-write: a private copy is taken before
any unification attempt"); the class `metavar_env`, a handle to a mutable
cell, is declared in the kernel.  A handle is a number, `cell` gives the
content of the cells in use, and `next` is the first handle not in use. -/
structure menv_store (K : Collab) where
  cell : Nat → Option K.Menv
  next : Nat

/-- The call `menv.copy()`: a new cell with the content of the cell of the
handle `r`, and the handle of the new cell. -/
def menv_store.copy {K : Collab} (h : menv_store K) (r : Nat) : menv_store K × Nat :=
  ({ cell := fun x => if x = h.next then h.cell r else h.cell x, next := h.next + 1 }, h.next)

/-- The effect on the store of the updates made through the handle `r`
(`new_menv->mk_metavar(...)`), which leave the content `v` in its cell. -/
def menv_store.update {K : Collab} (h : menv_store K) (r : Nat) (v : K.Menv) : menv_store K :=
  { h with cell := fun x => if x = r then some v else h.cell x }

/-- A proof state as the caller holds it: its metavariable environment is a
handle into the store. -/
structure proof_state_ref (K : Collab) where
  get_precision : precision
  get_goals : goals
  get_menv : Nat
  get_proof_builder : proof_builder K
  get_cex_builder : K.Cex

/-- The proof state a caller sees through a store. -/
def menv_store.read {K : Collab} (h : menv_store K) (s : proof_state_ref K) :
    Option (proof_state K) :=
  match h.cell s.get_menv with
  | none => none
  | some v =>
    some
      { get_precision := s.get_precision
        get_goals := s.get_goals
        get_menv := v
        get_proof_builder := s.get_proof_builder
        get_cex_builder := s.get_cex_builder }

/-- The term-based `apply_tactic` of lines 24-144 on a store: line 40 copies
the environment of the state into a new cell, lines 41-109 read and update
that cell through the handle `new_menv`, and line 140 puts the handle in the
returned state.  A state whose handle has no cell is not a state the code can
receive; nothing is done for it. -/
def apply_tactic_store (K : Collab) (env : K.Env) (h : menv_store K) (s : proof_state_ref K)
    (th th_type : expr) (all : Bool) : menv_store K × Option (proof_state_ref K) :=
  if s.get_precision ≠ precision.Precise ∧ s.get_precision ≠ precision.Over then
    (h, none)
  else
    match h.read s with
    | none => (h, none)
    | some sv =>
      let c := h.copy s.get_menv
      let r := apply_loop K env sv th_type all
      let h1 := c.1.update c.2 r.new_menv
      if r.found then
        (h1, some
          { get_precision := precision.Over
            get_goals := r.new_goals_buf
            get_menv := c.2
            get_proof_builder := new_pb K s.get_proof_builder th r.proof_info
            get_cex_builder := s.get_cex_builder })
      else
        (h1, none)

/-! ## Function information (`src/library/fun_info_manager.h`) -/

/-- A `bool` stored into a one-bit field `unsigned m:1`: it is converted to
`unsigned` (`true` to 1, `false` to 0) and cut to one bit. -/
def to_bit (b : Bool) : Nat := (if b then 1 else 0) % 2 ^ 1

/-- A one-bit field returned as a `bool`: true when it is not zero. -/
def of_bit (n : Nat) : Bool := n != 0

/-- The class `param_info` of lines 13-53: six one-bit fields and the list
of the previous arguments the parameter depends on. -/
structure param_info where
  m_specialized : Nat
  m_implicit : Nat
  m_inst_implicit : Nat
  m_prop : Nat
  m_subsingleton : Nat
  m_is_dep : Nat
  m_deps : List Nat
  deriving DecidableEq

/-- The constructor `param_info(spec, imp, inst_imp, prop, sub, is_dep, deps)`
of lines 43-45. -/
def mk_param_info (spec imp inst_imp prop sub is_dep : Bool) (deps : List Nat) : param_info :=
  { m_specialized := to_bit spec
    m_implicit := to_bit imp
    m_inst_implicit := to_bit inst_imp
    m_prop := to_bit prop
    m_subsingleton := to_bit sub
    m_is_dep := to_bit is_dep
    m_deps := deps }

/-- The accessor `get_dependencies()`. -/
def param_info.get_dependencies (p : param_info) : List Nat := p.m_deps

/-- The accessor `specialized()`. -/
def param_info.specialized (p : param_info) : Bool := of_bit p.m_specialized

/-- The accessor `is_implicit()`. -/
def param_info.is_implicit (p : param_info) : Bool := of_bit p.m_implicit

/-- The accessor `is_inst_implicit()`. -/
def param_info.is_inst_implicit (p : param_info) : Bool := of_bit p.m_inst_implicit

/-- The accessor `is_prop()`. -/
def param_info.is_prop (p : param_info) : Bool := of_bit p.m_prop

/-- The accessor `is_subsingleton()`. -/
def param_info.is_subsingleton (p : param_info) : Bool := of_bit p.m_subsingleton

/-- The accessor `is_dep()`. -/
def param_info.is_dep (p : param_info) : Bool := of_bit p.m_is_dep

/-- The class `fun_info` of lines 56-67; `m_arity` is an `unsigned`. -/
structure fun_info where
  m_arity : Nat
  m_params_info : List param_info
  m_deps : List Nat
  deriving DecidableEq

/-- The default constructor `fun_info()` of line 61. -/
def default_fun_info : fun_info := { m_arity := 0, m_params_info := [], m_deps := [] }

/-- The constructor `fun_info(arity, info, deps)` of lines 62-63. -/
def mk_fun_info (arity : Nat) (info : List param_info) (deps : List Nat) : fun_info :=
  { m_arity := arity, m_params_info := info, m_deps := deps }

/-- The accessor `get_arity()`. -/
def fun_info.get_arity (f : fun_info) : Nat := f.m_arity

/-- The accessor `get_params_info()`. -/
def fun_info.get_params_info (f : fun_info) : List param_info := f.m_params_info

/-- The accessor `get_result_dependencies()`. -/
def fun_info.get_result_dependencies (f : fun_info) : List Nat := f.m_deps

/-- Modelled from the spec: the context engine the analyzer queries
(`type_context`, declared in `library/type_context.h`): the type of a
function term, proposition-ness and subsingleton-ness of a type, the
visibility of a binder, the synthetic local standing for the parameter at a
position, and the instantiation of a binder body.  The last field lets the
binder-stripping loop be a terminating recursion: instantiating a body with
a synthetic local leaves the number of leading Pi binders unchanged. -/
structure type_context where
  infer : expr → expr
  is_prop : expr → Bool
  is_subsingleton : expr → Bool
  binder_implicit : expr → Bool
  binder_inst_implicit : expr → Bool
  mk_local : Nat → expr → expr
  instantiate : expr → expr → expr
  instantiate_local_pis : ∀ (b : expr) (i : Nat) (t : expr),
    count_pis (instantiate b (mk_local i t)) = count_pis b

/-- Whether the term `l` occurs in a term. -/
def occurs (l : expr) : expr → Bool
  | .app f a => decide (expr.app f a = l) || occurs l f || occurs l a
  | .lambda n d b => decide (expr.lambda n d b = l) || occurs l d || occurs l b
  | .pi n d b => decide (expr.pi n d b = l) || occurs l d || occurs l b
  | e => decide (e = l)

/-- Modelled from the spec: `fun_info_manager::collect_deps(e, locals)`,
declared at line 76 and defined in `fun_info_manager.cpp` ("collecting the
free local-variable indices occurring in its domain type restricted to the
synthetic locals standing for parameters `0..i-1`"): the positions, in
increasing order, of the locals that occur in `e`. -/
def fun_info_manager.collect_deps (e : expr) (locals : List expr) : List Nat :=
  (List.range locals.length).filter (fun k =>
    match locals[k]? with
    | some l => occurs l e
    | none => false)

/-- What the analyzer finds for one parameter while it strips the binders. -/
structure param_data where
  implicit : Bool
  inst_implicit : Bool
  prop : Bool
  subsingleton : Bool
  deps : List Nat
  deriving DecidableEq

/-- Modelled from the spec: the binder-stripping loop of
`fun_info_manager::get` ("stripping leading binders of `fn`'s type up to the
number available, and for each parameter index `i`: collecting the free
local-variable indices occurring in its domain type ...; querying the context
engine for proposition-ness and subsingleton-ness of the domain type under
the hypotheses introduced so far"), defined in `fun_info_manager.cpp`.  At
most `fuel` binders are stripped; the result is the data of the parameters,
the type that remains and the locals introduced. -/
def fun_info_manager.strip (T : type_context) :
    Nat → expr → List expr → List param_data × expr × List expr
  | fuel + 1, .pi n d b, locals =>
    let r := fun_info_manager.strip T fuel (T.instantiate b (T.mk_local locals.length d))
      (locals ++ [T.mk_local locals.length d])
    ({ implicit := T.binder_implicit (expr.pi n d b)
       inst_implicit := T.binder_inst_implicit (expr.pi n d b)
       prop := T.is_prop d
       subsingleton := T.is_prop d || T.is_subsingleton d
       deps := fun_info_manager.collect_deps d locals } :: r.1, r.2)
  | _, ty, locals => ([], ty, locals)

/-- Modelled from the spec: whether the parameter at position `i` is
dependent ("marking `isDependent` for index `i` if `i` appears in the
`dependencies` set of any later parameter or in `resultDependencies`"). -/
def fun_info_manager.is_dependent (i : Nat) (data : List param_data) (rdeps : List Nat) : Bool :=
  (data.drop (i + 1)).any (fun p => decide (i ∈ p.deps)) || decide (i ∈ rdeps)

/-- The `param_info` objects for the data `rest` of the parameters from
position `i` on, `data` being the data of all the parameters. -/
def fun_info_manager.mk_params (data : List param_data) (rdeps : List Nat) :
    Nat → List param_data → List param_info
  | _, [] => []
  | i, p :: rest =>
    mk_param_info false p.implicit p.inst_implicit p.prop p.subsingleton
        (fun_info_manager.is_dependent i data rdeps) p.deps ::
      fun_info_manager.mk_params data rdeps (i + 1) rest

/-- Modelled from the spec: `fun_info_manager::get(fn)`, declared at line 80
and defined in `fun_info_manager.cpp` ("returns full-arity information for
function term `fn`").  The cache `m_fun_info` only stores what is computed
here and is not represented. -/
def fun_info_manager.get (T : type_context) (fn : expr) : fun_info :=
  let r := fun_info_manager.strip T (count_pis (T.infer fn)) (T.infer fn) []
  let rdeps := fun_info_manager.collect_deps r.2.1 r.2.2
  mk_fun_info r.1.length (fun_info_manager.mk_params r.1 rdeps 0 r.1) rdeps

/-! ## Sample facts and proof states -/

/-- Sample atomic name. -/
def sample_name (s : String) : name := name.str name.anonymous s

/-- Sample constant. -/
def sample_const (s : String) : expr := expr.constant (sample_name s)

/-- Sample environment: `P`, `Q` and `R` are predicates. -/
def sample_env : List name := [sample_name "P", sample_name "Q", sample_name "R"]

/-- The type of the sample fact `th1 : Pi (x : A), P x`. -/
def sample_type1 : expr :=
  expr.pi (sample_name "x") (sample_const "A") (expr.app (sample_const "P") (expr.var 0))

/-- The type of the sample fact `th2 : Pi (x : A) (h : Q x), P x`. -/
def sample_type2 : expr :=
  expr.pi (sample_name "x") (sample_const "A")
    (expr.pi (sample_name "h") (expr.app (sample_const "Q") (expr.var 0))
      (expr.app (sample_const "P") (expr.var 1)))

/-- The type of the sample fact
`th3 : Pi (x : A) (h : Pi (y : B), R x y), P x`. -/
def sample_type3 : expr :=
  expr.pi (sample_name "x") (sample_const "A")
    (expr.pi (sample_name "h")
      (expr.pi (sample_name "y") (sample_const "B")
        (expr.app (expr.app (sample_const "R") (expr.var 1)) (expr.var 0)))
      (expr.app (sample_const "P") (expr.var 1)))

/-- The sample goal `⊢ P c`. -/
def sample_goal (c : String) : goal := ⟨[], expr.app (sample_const "P") (sample_const c)⟩

/-- The sample proof builder that returns the proof of the goal `n`. -/
def sample_pb (n : name) : proof_builder sampleK := fun m _ => find m n

/-- A sample proof state with the given precision and goals, whose proof
is the proof of the goal `main`. -/
def sample_state (prec : precision) (gs : goals) : proof_state sampleK :=
  { get_precision := prec
    get_goals := gs
    get_menv := (0 : Nat)
    get_proof_builder := sample_pb (sample_name "main")
    get_cex_builder := () }

/-- The sample goals `g1 : ⊢ P a`, `g2 : ⊢ P b`. -/
def sample_goals_ab : goals :=
  [(sample_name "g1", sample_goal "a"), (sample_name "g2", sample_goal "b")]

/-- The sample goals `g0 : ⊢ Q a`, `g1 : ⊢ P a`, `g2 : ⊢ P b`. -/
def sample_goals_qab : goals :=
  (sample_name "g0", ⟨[], expr.app (sample_const "Q") (sample_const "a")⟩) :: sample_goals_ab

/-- The sample unifier `?tmp.0 := a`. -/
def sample_subst_a : sample_subst :=
  [(name.num (name.str name.anonymous "tmp") 0, sample_const "a")]

/-- The state of the placeholder walk for the goal `g1 : ⊢ P a` and the fact
`th3`, after its first parameter `x` has been resolved to `a`. -/
def sample_walk_state3 : walk_state sampleK :=
  walk_step sampleK sample_env sample_subst_a (sample_name "g1") (sample_goal "a")
    { l := [], th_type_c := sample_type3, new_goal_idx := 1, new_goals_buf := [],
      new_menv := (0 : Nat) }
    (expr.metavar (name.num (name.str name.anonymous "tmp") 0))

/-- The type of the sample fact `th4 : Pi (h : Q), P`, for propositions
`P` and `Q`. -/
def sample_type4 : expr := expr.pi (sample_name "h") (sample_const "Q") (sample_const "P")

/-- The type of the sample fact `th5 : Pi (z : A), Q`. -/
def sample_type5 : expr := expr.pi (sample_name "z") (sample_const "A") (sample_const "Q")

/-- The type of the sample fact `th6 : Pi (y : A) (k : R y), Q y`. -/
def sample_type6 : expr :=
  expr.pi (sample_name "y") (sample_const "A")
    (expr.pi (sample_name "k") (expr.app (sample_const "R") (expr.var 0))
      (expr.app (sample_const "Q") (expr.var 1)))

/-- A sample proof state with two goals `g : ⊢ P` and `g.1 : ⊢ P`, the
second carrying the name that the first subgoal of the first will get; its
proof builder returns the proof of `g.1`. -/
def sample_clash_state : proof_state sampleK :=
  { get_precision := precision.Precise
    get_goals := [(sample_name "g", ⟨[], sample_const "P"⟩),
      (name.num (sample_name "g") 1, ⟨[], sample_const "P"⟩)]
    get_menv := (0 : Nat)
    get_proof_builder := sample_pb (name.num (sample_name "g") 1)
    get_cex_builder := () }

/-- A sample proof map with the proofs `pr1` of `g.1` and `pr2` of `g.1.1`. -/
def sample_clash_proofs : proof_map :=
  fun n =>
    if n = name.num (sample_name "g") 1 then some (sample_const "pr1")
    else if n = name.num (name.num (sample_name "g") 1) 1 then some (sample_const "pr2")
    else none

/-- The sample proof state with the single goal `main : ⊢ P a`. -/
def sample_state0 : proof_state sampleK :=
  sample_state precision.Precise [(sample_name "main", sample_goal "a")]

/-- The proof state after `th2` has been applied to `sample_state0`: its
single goal is `main.1 : ⊢ Q a`. -/
def sample_state1 : proof_state sampleK :=
  { get_precision := precision.Over
    get_goals := (apply_loop sampleK sample_env sample_state0 sample_type2 false).new_goals_buf
    get_menv := (apply_loop sampleK sample_env sample_state0 sample_type2 false).new_menv
    get_proof_builder := new_pb sampleK sample_state0.get_proof_builder (sample_const "th2")
      (apply_loop sampleK sample_env sample_state0 sample_type2 false).proof_info
    get_cex_builder := () }

/-- The proof state after `th6` has been applied to `sample_state1`: its
single goal is `main.1.1 : ⊢ R a`. -/
def sample_state2 : proof_state sampleK :=
  { get_precision := precision.Over
    get_goals := (apply_loop sampleK sample_env sample_state1 sample_type6 false).new_goals_buf
    get_menv := (apply_loop sampleK sample_env sample_state1 sample_type6 false).new_menv
    get_proof_builder := new_pb sampleK sample_state1.get_proof_builder (sample_const "th6")
      (apply_loop sampleK sample_env sample_state1 sample_type6 false).proof_info
    get_cex_builder := () }

/-- A sample proof map with the proof `pr` of `main.1.1`. -/
def sample_proofs2 : proof_map :=
  fun n =>
    if n = name.num (name.num (sample_name "main") 1) 1 then some (sample_const "pr") else none

/-- The proof state after `th4` has been applied with `all = true` to
`sample_clash_state`: its goals are `g.1 : ⊢ Q` and `g.1.1 : ⊢ Q`. -/
def sample_clash_state1 : proof_state sampleK :=
  { get_precision := precision.Over
    get_goals := (apply_loop sampleK sample_env sample_clash_state sample_type4 true).new_goals_buf
    get_menv := (apply_loop sampleK sample_env sample_clash_state sample_type4 true).new_menv
    get_proof_builder := new_pb sampleK sample_clash_state.get_proof_builder (sample_const "th4")
      (apply_loop sampleK sample_env sample_clash_state sample_type4 true).proof_info
    get_cex_builder := () }

/-- The proof state after `th5` has been applied with `all = true` to
`sample_clash_state1`: no goal is left. -/
def sample_clash_state2 : proof_state sampleK :=
  { get_precision := precision.Over
    get_goals := (apply_loop sampleK sample_env sample_clash_state1 sample_type5 true).new_goals_buf
    get_menv := (apply_loop sampleK sample_env sample_clash_state1 sample_type5 true).new_menv
    get_proof_builder := new_pb sampleK sample_clash_state1.get_proof_builder (sample_const "th5")
      (apply_loop sampleK sample_env sample_clash_state1 sample_type5 true).proof_info
    get_cex_builder := () }

/-- A sample object table: `th1` is a theorem of type `sample_type1`, `ax2` is
an axiom of type `sample_type2`, `def3` is neither (a definition). -/
def sample_find_object (_ : List name) (n : name) : Option object :=
  if n = sample_name "th1" then some ⟨true, false, sample_type1⟩
  else if n = sample_name "ax2" then some ⟨false, true, sample_type2⟩
  else if n = sample_name "def3" then some ⟨false, false, sample_type1⟩
  else none

/-- The state of the placeholder walk at its start, for the fact `th5`. -/
def sample_walk_state5 : walk_state sampleK :=
  { l := [], th_type_c := sample_type5, new_goal_idx := 1, new_goals_buf := [],
    new_menv := (0 : Nat) }

/-- A sample store with one cell, of handle 0, holding the environment `0`. -/
def sample_store : menv_store sampleK :=
  { cell := fun x => if x = 0 then some (0 : Nat) else none, next := 1 }

/-- A sample proof state holding the handle 0, with the goals `g1 : ⊢ Q` and
`g2 : ⊢ P b`. -/
def sample_state_ref : proof_state_ref sampleK :=
  { get_precision := precision.Precise
    get_goals := [(sample_name "g1", ⟨[], sample_const "Q"⟩), (sample_name "g2", sample_goal "b")]
    get_menv := 0
    get_proof_builder := sample_pb (sample_name "main")
    get_cex_builder := () }

/-- The type of the sample fact
`th7 : Pi (x : A) (h1 : Q x) (h2 : Pi (y : B), R x y), P x`. -/
def sample_type7 : expr :=
  expr.pi (sample_name "x") (sample_const "A")
    (expr.pi (sample_name "h1") (expr.app (sample_const "Q") (expr.var 0))
      (expr.pi (sample_name "h2")
        (expr.pi (sample_name "y") (sample_const "B")
          (expr.app (expr.app (sample_const "R") (expr.var 2)) (expr.var 0)))
        (expr.app (sample_const "P") (expr.var 2))))

/-- The sample goal `h0 : H0 ⊢ P a`. -/
def sample_goal_h0 : goal :=
  ⟨[(sample_name "h0", sample_const "H0")], expr.app (sample_const "P") (sample_const "a")⟩

/-- A sample proof state with the goals `g0 : ⊢ Q a`, `g1 : h0 : H0 ⊢ P a`,
`g2 : ⊢ P a` and `g3 : ⊢ P b`. -/
def sample_state7 : proof_state sampleK :=
  sample_state precision.Precise
    [(sample_name "g0", ⟨[], expr.app (sample_const "Q") (sample_const "a")⟩),
      (sample_name "g1", sample_goal_h0),
      (sample_name "g2", sample_goal "a"),
      (sample_name "g3", sample_goal "b")]

/-- The proof state after `th7` has been applied to `sample_state7` with the
flag `all`. -/
def sample_state7_after (all : Bool) : proof_state sampleK :=
  { get_precision := precision.Over
    get_goals := (apply_loop sampleK sample_env sample_state7 sample_type7 all).new_goals_buf
    get_menv := (apply_loop sampleK sample_env sample_state7 sample_type7 all).new_menv
    get_proof_builder := new_pb sampleK sample_state7.get_proof_builder (sample_const "th7")
      (apply_loop sampleK sample_env sample_state7 sample_type7 all).proof_info
    get_cex_builder := () }

/-- A sample proof map with the proof `pr` of `main.1`. -/
def sample_proofs1 : proof_map :=
  fun n => if n = name.num (sample_name "main") 1 then some (sample_const "pr") else none

/-! # Theorems -/

/-! ## The returned state -/

/-- What a returned state is made of. -/
theorem apply_tactic_eq_some (K : Collab) (env : K.Env) (s s1 : proof_state K)
    (th th_type : expr) (all : Bool) (h : apply_tactic K env s th th_type all = some s1) :
    (s.get_precision = precision.Precise ∨ s.get_precision = precision.Over) ∧
    (apply_loop K env s th_type all).found = true ∧
    s1.get_goals = (apply_loop K env s th_type all).new_goals_buf ∧
    s1.get_precision = precision.Over ∧
    s1.get_menv = (apply_loop K env s th_type all).new_menv ∧
    s1.get_proof_builder =
      new_pb K s.get_proof_builder th (apply_loop K env s th_type all).proof_info ∧
    s1.get_cex_builder = s.get_cex_builder := by
  unfold apply_tactic at h
  split at h
  · cases h
  · rename_i hp
    dsimp only at h
    split at h
    · rename_i hf
      cases h
      refine ⟨?_, hf, rfl, rfl, rfl, rfl, rfl⟩
      cases hq : s.get_precision <;> simp_all
    · cases h

/-! ## The goal loop: when a goal is found -/

theorem goal_step_found_of_found (K : Collab) (env : K.Env) (th_type : expr) (mvars : List expr)
    (all : Bool) (st : loop_state K) (p : name × goal) (h : st.found = true) :
    (goal_step K env th_type mvars all st p).found = true := by
  unfold goal_step
  split
  · split <;> simp [h]
  · simp [h]

theorem foldl_goal_step_found_of_found (K : Collab) (env : K.Env) (th_type : expr)
    (mvars : List expr) (all : Bool) (gs : goals) (st : loop_state K) (h : st.found = true) :
    (gs.foldl (goal_step K env th_type mvars all) st).found = true := by
  induction gs generalizing st with
  | nil => simpa using h
  | cons p gs ih =>
    simp only [List.foldl_cons]
    exact ih _ (goal_step_found_of_found K env th_type mvars all st p h)

theorem foldl_goal_step_found_iff (K : Collab) (env : K.Env) (th_type : expr)
    (mvars : List expr) (all : Bool) (gs : goals) (st : loop_state K) (h : st.found = false) :
    (gs.foldl (goal_step K env th_type mvars all) st).found = true ↔
      ∃ p ∈ gs, K.fo_unify st.th_type_c p.2.get_conclusion ≠ none := by
  induction gs generalizing st with
  | nil => simp [h]
  | cons p gs ih =>
    simp only [List.foldl_cons, List.mem_cons, exists_eq_or_imp]
    cases hu : K.fo_unify st.th_type_c p.2.get_conclusion with
    | none =>
      have hst : goal_step K env th_type mvars all st p =
          { st with new_goals_buf := st.new_goals_buf ++ [p] } := by
        simp [goal_step, h, hu]
      rw [hst, ih _ (by simpa using h)]
      simp
    | some subst =>
      have hf : (goal_step K env th_type mvars all st p).found = true := by
        simp [goal_step, h, hu]
      simp [foldl_goal_step_found_of_found K env th_type mvars all gs _ hf]

/-- C1: when the precision is Precise or Over, `apply_tactic` returns no
proof state if and only if first-order unification of the fact's conclusion
(the fact's type with its leading binders stripped and instantiated with the
placeholder metavariables) fails against the conclusion of every goal;
equivalently it returns a state exactly when at least one goal unifies. -/
theorem apply_tactic_none_iff (K : Collab) (env : K.Env) (s : proof_state K) (th th_type : expr)
    (all : Bool) (hprec : s.get_precision = precision.Precise ∨ s.get_precision = precision.Over) :
    (apply_tactic K env s th th_type all = none ↔
        ∀ p ∈ s.get_goals, K.fo_unify (th_body K s.get_menv th_type) p.2.get_conclusion = none) ∧
    ((∃ s1, apply_tactic K env s th th_type all = some s1) ↔
        ∃ p ∈ s.get_goals,
          K.fo_unify (th_body K s.get_menv th_type) p.2.get_conclusion ≠ none) := by
  have hp : ¬ (s.get_precision ≠ precision.Precise ∧ s.get_precision ≠ precision.Over) := by
    rcases hprec with h | h <;> simp [h]
  have hiff := foldl_goal_step_found_iff K env th_type (mk_mvars K (count_pis th_type)) all
    s.get_goals
    (loop_init K s.get_menv th_type) rfl
  have hbody : (loop_init K s.get_menv th_type).th_type_c = th_body K s.get_menv th_type := rfl
  rw [hbody] at hiff
  constructor
  · unfold apply_tactic
    rw [if_neg hp]
    simp only [apply_loop]
    by_cases hf : (s.get_goals.foldl (goal_step K env th_type (mk_mvars K (count_pis th_type)) all)
        (loop_init K s.get_menv th_type)).found = true
    · simp only [hf, if_true]
      have := hiff.mp hf
      constructor
      · intro h; cases h
      · intro hall
        obtain ⟨p, hp1, hp2⟩ := this
        exact absurd (hall p hp1) hp2
    · simp only [hf]
      simp only [Bool.false_eq_true, if_false, true_iff]
      intro p hp1
      by_contra hne
      exact hf (hiff.mpr ⟨p, hp1, hne⟩)
  · unfold apply_tactic
    rw [if_neg hp]
    simp only [apply_loop]
    by_cases hf : (s.get_goals.foldl (goal_step K env th_type (mk_mvars K (count_pis th_type)) all)
        (loop_init K s.get_menv th_type)).found = true
    · simp only [hf, if_true]
      constructor
      · intro _; exact hiff.mp hf
      · intro _; exact ⟨_, rfl⟩
    · simp only [hf]
      constructor
      · rintro ⟨s1, h⟩; simp at h
      · intro h; exact absurd (hiff.mpr h) hf

theorem apply_tactic_none_iff_witness :
    ((sample_state precision.Precise sample_goals_ab).get_precision = precision.Precise ∨
      (sample_state precision.Precise sample_goals_ab).get_precision = precision.Over) ∧
    ((apply_tactic sampleK sample_env (sample_state precision.Precise sample_goals_ab)
          (sample_const "th1") sample_type1 true = none ↔
        ∀ p ∈ (sample_state precision.Precise sample_goals_ab).get_goals,
          sampleK.fo_unify
            (th_body sampleK (sample_state precision.Precise sample_goals_ab).get_menv
              sample_type1) p.2.get_conclusion = none) ∧
    ((∃ s1, apply_tactic sampleK sample_env (sample_state precision.Precise sample_goals_ab)
          (sample_const "th1") sample_type1 true = some s1) ↔
        ∃ p ∈ (sample_state precision.Precise sample_goals_ab).get_goals,
          sampleK.fo_unify
            (th_body sampleK (sample_state precision.Precise sample_goals_ab).get_menv
              sample_type1) p.2.get_conclusion ≠ none)) :=
  ⟨Or.inl rfl, apply_tactic_none_iff sampleK sample_env
    (sample_state precision.Precise sample_goals_ab) (sample_const "th1") sample_type1 true
    (Or.inl rfl)⟩

/-- C2: on a proof state whose precision is UnderOver, `apply_tactic` returns
no proof state, whatever the fact, the flag and the goals are. -/
theorem apply_tactic_UnderOver (K : Collab) (env : K.Env) (s : proof_state K) (th th_type : expr)
    (all : Bool) (hprec : s.get_precision = precision.UnderOver) :
    apply_tactic K env s th th_type all = none := by
  simp [apply_tactic, hprec]

theorem apply_tactic_UnderOver_witness :
    (sample_state precision.UnderOver sample_goals_ab).get_precision = precision.UnderOver ∧
    (sampleK.fo_unify (th_body sampleK (0 : Nat) sample_type1)
      (sample_goal "a").get_conclusion).isSome = true ∧
    apply_tactic sampleK sample_env (sample_state precision.UnderOver sample_goals_ab)
      (sample_const "th1") sample_type1 true = none :=
  ⟨rfl, by decide,
    apply_tactic_UnderOver sampleK sample_env (sample_state precision.UnderOver sample_goals_ab)
      (sample_const "th1") sample_type1 true rfl⟩

/-- C3: the precision of a proof state returned by `apply_tactic` is exactly
Over; the input precision was Precise or Over, so the returned precision is
never stronger than the input precision. -/
theorem apply_tactic_precision (K : Collab) (env : K.Env) (s s1 : proof_state K)
    (th th_type : expr) (all : Bool) (h : apply_tactic K env s th th_type all = some s1) :
    s1.get_precision = precision.Over ∧
      (s.get_precision = precision.Precise ∨ s.get_precision = precision.Over) ∧
      s.get_precision.weakness ≤ s1.get_precision.weakness := by
  unfold apply_tactic at h
  split at h
  · cases h
  · rename_i hp
    dsimp only at h
    split at h
    · cases h
      have hs : s.get_precision = precision.Precise ∨ s.get_precision = precision.Over := by
        cases hq : s.get_precision <;> simp_all
      refine ⟨rfl, hs, ?_⟩
      rcases hs with h1 | h1 <;> simp [h1, precision.weakness]
    · cases h

theorem apply_tactic_precision_witness :
    ∃ s1, apply_tactic sampleK sample_env (sample_state precision.Precise sample_goals_ab)
        (sample_const "th1") sample_type1 false = some s1 ∧ s1.get_precision = precision.Over ∧
      precision.Precise.weakness ≤ s1.get_precision.weakness := by
  cases h : apply_tactic sampleK sample_env (sample_state precision.Precise sample_goals_ab)
      (sample_const "th1") sample_type1 false with
  | none =>
    have hs : (apply_tactic sampleK sample_env (sample_state precision.Precise sample_goals_ab)
      (sample_const "th1") sample_type1 false).isSome = true := by decide
    rw [h] at hs
    cases hs
  | some s1 =>
    have hp := apply_tactic_precision sampleK sample_env _ s1 (sample_const "th1") sample_type1
      false h
    exact ⟨s1, rfl, hp.1, hp.2.2⟩

/-! ## The placeholder walk and the goal buffer -/

/-- The walk only appends to the goal buffer: one step with a longer buffer
in front. -/
theorem walk_step_buf (K : Collab) (env : K.Env) (subst : K.Subst) (gname : name) (g : goal)
    (st : walk_state K) (mvar : expr) (buf : goals) :
    walk_step K env subst gname g { st with new_goals_buf := buf ++ st.new_goals_buf } mvar =
      { walk_step K env subst gname g st mvar with
        new_goals_buf := buf ++ (walk_step K env subst gname g st mvar).new_goals_buf } := by
  unfold walk_step
  dsimp only
  split
  · rfl
  · split
    · simp [List.append_assoc]
    · rfl

theorem walk_buf (K : Collab) (env : K.Env) (subst : K.Subst) (gname : name) (g : goal)
    (mvars : List expr) (st : walk_state K) (buf : goals) :
    walk K env subst gname g { st with new_goals_buf := buf ++ st.new_goals_buf } mvars =
      { walk K env subst gname g st mvars with
        new_goals_buf := buf ++ (walk K env subst gname g st mvars).new_goals_buf } := by
  induction mvars generalizing st with
  | nil => rfl
  | cons mvar rest ih =>
    simp only [walk, List.foldl_cons] at ih ⊢
    rw [walk_step_buf, ih]

theorem walk_step_names (K : Collab) (env : K.Env) (subst : K.Subst) (gname : name) (g : goal)
    (st : walk_state K) (mvar : expr) :
    ∃ new : goals,
      (walk_step K env subst gname g st mvar).new_goals_buf = st.new_goals_buf ++ new ∧
      (walk_step K env subst gname g st mvar).new_goal_idx = st.new_goal_idx + new.length ∧
      new.map Prod.fst =
        (List.range new.length).map (fun j => name.num gname (st.new_goal_idx + j)) := by
  unfold walk_step
  dsimp only
  split
  · exact ⟨[], by simp⟩
  · split
    · exact ⟨[_], rfl, rfl, by simp [List.range_succ]⟩
    · exact ⟨[], by simp⟩

/-- The names of the subgoals appended by the walk: the goal name extended
by the consecutive indices from the current index on. -/
theorem walk_names (K : Collab) (env : K.Env) (subst : K.Subst) (gname : name) (g : goal)
    (mvars : List expr) (st : walk_state K) :
    ∃ new : goals,
      (walk K env subst gname g st mvars).new_goals_buf = st.new_goals_buf ++ new ∧
      (walk K env subst gname g st mvars).new_goal_idx = st.new_goal_idx + new.length ∧
      new.map Prod.fst =
        (List.range new.length).map (fun j => name.num gname (st.new_goal_idx + j)) := by
  induction mvars generalizing st with
  | nil => exact ⟨[], by simp [walk]⟩
  | cons mvar rest ih =>
    obtain ⟨new2, h1, h2, h3⟩ := ih (walk_step K env subst gname g st mvar)
    obtain ⟨new1, k1, k2, k3⟩ := walk_step_names K env subst gname g st mvar
    simp only [walk, List.foldl_cons] at h1 h2 ⊢
    refine ⟨new1 ++ new2, ?_, ?_, ?_⟩
    · rw [h1, k1, List.append_assoc]
    · rw [h2, k2, List.length_append, Nat.add_assoc]
    · rw [List.map_append, k3, h3, k2, List.length_append, List.range_add, List.map_append,
        List.map_map]
      congr 1
      apply List.map_congr_left
      intro j _
      simp only [Function.comp, Nat.add_assoc]

theorem spawned_subgoals_names (K : Collab) (env : K.Env) (menv : K.Menv) (th_type : expr)
    (subst : K.Subst) (gname : name) (g : goal) :
    (spawned_subgoals K env menv th_type subst gname g).map Prod.fst =
      (List.range (spawned_subgoals K env menv th_type subst gname g).length).map
        (fun j => name.num gname (j + 1)) := by
  obtain ⟨new, h1, _, h3⟩ := walk_names K env subst gname g (mk_mvars K (count_pis th_type))
    { l := [], th_type_c := th_type, new_goal_idx := 1, new_goals_buf := [], new_menv := menv }
  simp only [List.nil_append] at h1
  unfold spawned_subgoals
  rw [h1, h3]
  apply List.map_congr_left
  intro j _
  simp only [Nat.add_comm]

theorem name_num_ne_self (n : name) (k : Nat) : name.num n k ≠ n := by
  induction n generalizing k with
  | anonymous => intro h; cases h
  | str p s _ => intro h; cases h
  | num p j ih =>
    intro h
    injection h with h1 h2
    exact ih j h1

/-! ## The goal loop and the goal buffer -/

theorem foldl_goal_step_fail (K : Collab) (env : K.Env) (th_type : expr) (mvars : List expr)
    (all : Bool) (gs : goals) (st : loop_state K) (hf : st.found = false)
    (hu : ∀ p ∈ gs, K.fo_unify st.th_type_c p.2.get_conclusion = none) :
    gs.foldl (goal_step K env th_type mvars all) st =
      { st with new_goals_buf := st.new_goals_buf ++ gs } := by
  induction gs generalizing st with
  | nil => simp
  | cons p gs ih =>
    have hst : goal_step K env th_type mvars all st p =
        { st with new_goals_buf := st.new_goals_buf ++ [p] } := by
      simp [goal_step, hf, hu p (List.mem_cons_self _ _)]
    rw [List.foldl_cons, hst, ih _ (by simpa using hf)
      (fun q hq => by simpa using hu q (List.mem_cons_of_mem _ hq))]
    simp [List.append_assoc]

theorem foldl_goal_step_skip (K : Collab) (env : K.Env) (th_type : expr) (mvars : List expr)
    (gs : goals) (st : loop_state K) (hf : st.found = true) :
    gs.foldl (goal_step K env th_type mvars false) st =
      { st with new_goals_buf := st.new_goals_buf ++ gs } := by
  induction gs generalizing st with
  | nil => simp
  | cons p gs ih =>
    have hst : goal_step K env th_type mvars false st p =
        { st with new_goals_buf := st.new_goals_buf ++ [p] } := by
      simp [goal_step, hf]
    rw [List.foldl_cons, hst, ih _ (by simpa using hf)]
    simp [List.append_assoc]

/-- The goal loop with `all = false` on a state whose first unifying goal
is `g`: only the walk for `g` contributes. -/
theorem apply_loop_first_goal (K : Collab) (env : K.Env) (s : proof_state K)
    (th_type : expr) (pre post : goals) (gname : name) (g : goal) (subst : K.Subst)
    (hgs : s.get_goals = pre ++ (gname, g) :: post)
    (hpre : ∀ p ∈ pre, K.fo_unify (th_body K s.get_menv th_type) p.2.get_conclusion = none)
    (hg : K.fo_unify (th_body K s.get_menv th_type) g.get_conclusion = some subst) :
    apply_loop K env s th_type false =
      { th_type_c := (walk K env subst gname g
            (walk_init K th_type { loop_init K s.get_menv th_type with new_goals_buf := pre })
            (mk_mvars K (count_pis th_type))).th_type_c
        found := true
        new_goals_buf := pre ++ spawned_subgoals K env s.get_menv th_type subst gname g ++ post
        proof_info := [(gname, (walk K env subst gname g
            (walk_init K th_type { loop_init K s.get_menv th_type with new_goals_buf := pre })
            (mk_mvars K (count_pis th_type))).l)]
        new_menv := (walk K env subst gname g
            (walk_init K th_type { loop_init K s.get_menv th_type with new_goals_buf := pre })
            (mk_mvars K (count_pis th_type))).new_menv } := by
  unfold apply_loop
  rw [hgs, List.foldl_append, List.foldl_cons,
    foldl_goal_step_fail K env th_type _ false pre (loop_init K s.get_menv th_type) rfl hpre]
  have hstep : goal_step K env th_type (mk_mvars K (count_pis th_type)) false
      { loop_init K s.get_menv th_type with
        new_goals_buf := (loop_init K s.get_menv th_type).new_goals_buf ++ pre } (gname, g) =
      { th_type_c := (walk K env subst gname g
          (walk_init K th_type { loop_init K s.get_menv th_type with new_goals_buf := pre })
          (mk_mvars K (count_pis th_type))).th_type_c
        found := true
        new_goals_buf := pre ++ spawned_subgoals K env s.get_menv th_type subst gname g
        proof_info := [(gname, (walk K env subst gname g
          (walk_init K th_type { loop_init K s.get_menv th_type with new_goals_buf := pre })
          (mk_mvars K (count_pis th_type))).l)]
        new_menv := (walk K env subst gname g
          (walk_init K th_type { loop_init K s.get_menv th_type with new_goals_buf := pre })
          (mk_mvars K (count_pis th_type))).new_menv } := by
    have hw := walk_buf K env subst gname g (mk_mvars K (count_pis th_type))
      { l := [], th_type_c := th_type, new_goal_idx := 1, new_goals_buf := [],
        new_menv := s.get_menv } pre
    simp only [List.append_nil] at hw
    have hu : K.fo_unify (loop_init K s.get_menv th_type).th_type_c g.get_conclusion =
        some subst := hg
    simp only [goal_step, loop_init, walk_init, List.nil_append, Bool.not_false, Bool.or_true,
      if_true] at hu ⊢
    rw [hu]
    simp only [hw, spawned_subgoals]
  rw [hstep, foldl_goal_step_skip K env th_type _ post _ rfl]

/-- C4: with `all = false`, if `g` is the first goal whose conclusion unifies
with the fact's conclusion, a state is returned whenever the precision is
Precise or Over, and the goal list of the returned state is the goals before
`g`, then the subgoals spawned for `g` (named `g.1`, `g.2`, ... in spawning
order), then the goals after `g`, which are not unified against; the name of
`g` is not in the list unless another goal of the input state carries it. -/
theorem apply_tactic_first_goal (K : Collab) (env : K.Env) (s : proof_state K)
    (th th_type : expr) (pre post : goals) (gname : name) (g : goal) (subst : K.Subst)
    (hgs : s.get_goals = pre ++ (gname, g) :: post)
    (hpre : ∀ p ∈ pre, K.fo_unify (th_body K s.get_menv th_type) p.2.get_conclusion = none)
    (hg : K.fo_unify (th_body K s.get_menv th_type) g.get_conclusion = some subst) :
    ((s.get_precision = precision.Precise ∨ s.get_precision = precision.Over) →
      ∃ s1, apply_tactic K env s th th_type false = some s1) ∧
    ∀ s1, apply_tactic K env s th th_type false = some s1 →
      s1.get_goals = pre ++ spawned_subgoals K env s.get_menv th_type subst gname g ++ post ∧
      (spawned_subgoals K env s.get_menv th_type subst gname g).map Prod.fst =
        (List.range (spawned_subgoals K env s.get_menv th_type subst gname g).length).map
          (fun j => name.num gname (j + 1)) ∧
      ((∀ p ∈ pre ++ post, p.1 ≠ gname) → ∀ p ∈ s1.get_goals, p.1 ≠ gname) := by
  have hloop := apply_loop_first_goal K env s th_type pre post gname g subst hgs hpre hg
  have hnames := spawned_subgoals_names K env s.get_menv th_type subst gname g
  refine ⟨?_, ?_⟩
  · intro hprec
    have hp : ¬ (s.get_precision ≠ precision.Precise ∧ s.get_precision ≠ precision.Over) := by
      rcases hprec with h | h <;> simp [h]
    unfold apply_tactic
    rw [if_neg hp]
    dsimp only
    rw [hloop]
    simp only [if_true]
    exact ⟨_, rfl⟩
  · intro s1 h1
    have hgs1 : s1.get_goals =
        pre ++ spawned_subgoals K env s.get_menv th_type subst gname g ++ post := by
      rw [(apply_tactic_eq_some K env s s1 th th_type false h1).2.2.1, hloop]
    refine ⟨hgs1, hnames, ?_⟩
    intro hne p hpmem
    rw [hgs1] at hpmem
    simp only [List.mem_append] at hpmem hne
    rcases hpmem with (h2 | h2) | h2
    · exact hne p (Or.inl h2)
    · have hmem : p.1 ∈ (spawned_subgoals K env s.get_menv th_type subst gname g).map Prod.fst :=
        List.mem_map_of_mem _ h2
      rw [hnames] at hmem
      obtain ⟨j, _, hj⟩ := List.mem_map.mp hmem
      rw [← hj]
      exact name_num_ne_self gname (j + 1)
    · exact hne p (Or.inr h2)

theorem apply_tactic_first_goal_witness :
    sample_goals_qab = [(sample_name "g0", ⟨[], expr.app (sample_const "Q") (sample_const "a")⟩)] ++
      (sample_name "g1", sample_goal "a") :: [(sample_name "g2", sample_goal "b")] ∧
    (∀ p ∈ [(sample_name "g0", (⟨[], expr.app (sample_const "Q") (sample_const "a")⟩ : goal))],
      sampleK.fo_unify (th_body sampleK (0 : Nat) sample_type2) p.2.get_conclusion = none) ∧
    sampleK.fo_unify (th_body sampleK (0 : Nat) sample_type2) (sample_goal "a").get_conclusion =
      some sample_subst_a ∧
    ∃ s1, apply_tactic sampleK sample_env (sample_state precision.Precise sample_goals_qab)
        (sample_const "th2") sample_type2 false = some s1 ∧
      s1.get_goals = [(sample_name "g0", ⟨[], expr.app (sample_const "Q") (sample_const "a")⟩),
        (name.num (sample_name "g1") 1, ⟨[], expr.app (sample_const "Q") (sample_const "a")⟩),
        (sample_name "g2", sample_goal "b")] ∧
      ∀ p ∈ s1.get_goals, p.1 ≠ sample_name "g1" := by
  have hpre : ∀ p ∈ [(sample_name "g0",
      (⟨[], expr.app (sample_const "Q") (sample_const "a")⟩ : goal))],
      sampleK.fo_unify (th_body sampleK (0 : Nat) sample_type2) p.2.get_conclusion = none := by
    intro p hp
    simp only [List.mem_singleton] at hp
    subst hp
    rfl
  obtain ⟨hex, hall⟩ := apply_tactic_first_goal sampleK sample_env
    (sample_state precision.Precise sample_goals_qab) (sample_const "th2") sample_type2
    [(sample_name "g0", ⟨[], expr.app (sample_const "Q") (sample_const "a")⟩)]
    [(sample_name "g2", sample_goal "b")] (sample_name "g1") (sample_goal "a")
    sample_subst_a rfl hpre rfl
  obtain ⟨s1, h1⟩ := hex (Or.inl rfl)
  obtain ⟨h2, -, h4⟩ := hall s1 h1
  refine ⟨rfl, hpre, rfl, s1, h1, ?_, h4 (by decide)⟩
  rw [h2]
  decide


/-- C5 (evaluation of the code at the failing input): with `all = true`, the
fact `th1 : Pi (x : A), P x` and the goals `g1 : ⊢ P a`, `g2 : ⊢ P b`, the
conclusion of `g2` unifies with the fact's conclusion `P ?tmp.0`, and `g2` is
solved when it is the only goal; but after `g1` has unified, the term
unified against `g2` is `P a`, and `g2` is returned untransformed. -/
theorem apply_all_later_goal_depends_on_earlier :
    th_body sampleK (0 : Nat) sample_type1 =
      expr.app (sample_const "P") (expr.metavar (name.num (name.str name.anonymous "tmp") 0)) ∧
    (sampleK.fo_unify (th_body sampleK (0 : Nat) sample_type1)
      (sample_goal "b").get_conclusion).isSome = true ∧
    (apply_tactic sampleK sample_env
      (sample_state precision.Precise [(sample_name "g2", sample_goal "b")])
      (sample_const "th1") sample_type1 true).map (fun s1 => s1.get_goals) = some [] ∧
    (goal_step sampleK sample_env sample_type1 (mk_mvars sampleK (count_pis sample_type1)) true
      (loop_init sampleK (0 : Nat) sample_type1) (sample_name "g1", sample_goal "a")).th_type_c =
      expr.app (sample_const "P") (sample_const "a") ∧
    (apply_tactic sampleK sample_env (sample_state precision.Precise sample_goals_ab)
      (sample_const "th1") sample_type1 true).map (fun s1 => s1.get_goals) =
      some [(sample_name "g2", sample_goal "b")] := by
  refine ⟨?_, ?_, ?_, ?_, ?_⟩ <;> decide

/-- C6 (evaluation of the code at the failing input): with `all = true`, the
fact `th1 : Pi (x : A), P x` (no propositional argument, so no subgoal is
spawned) and the `m = 2` goals `g1 : ⊢ P a`, `g2 : ⊢ P b`, both goals unify
against the fact's conclusion (`k = 2`), yet the returned state has one
goal, not `(2 - 2) + 0 = 0`. -/
theorem apply_all_goal_count_mismatch :
    sample_goals_ab.length = 2 ∧
    (sample_goals_ab.filter (fun p => (sampleK.fo_unify (th_body sampleK (0 : Nat) sample_type1)
      p.2.get_conclusion).isSome)).length = 2 ∧
    (∀ p ∈ sample_goals_ab, ∀ subst, spawned_subgoals sampleK sample_env (0 : Nat) sample_type1
      subst p.1 p.2 = []) ∧
    (apply_tactic sampleK sample_env (sample_state precision.Precise sample_goals_ab)
      (sample_const "th1") sample_type1 true).map (fun s1 => s1.get_goals.length) = some 1 := by
  refine ⟨by decide, by decide, ?_, by decide⟩
  intro p _ subst
  simp only [spawned_subgoals, walk, mk_mvars, sample_type1, count_pis, List.range_succ,
    List.range_zero, List.nil_append, List.map_cons, List.map_nil, List.foldl_cons,
    List.foldl_nil]
  unfold walk_step
  dsimp only
  split
  · rfl
  · have h : sampleK.is_flex_proposition sample_env (sample_const "A") (0 : Nat) = false := by
      decide
    simp only [abst_domain, h]
    rfl


/-! ## The proof builder: one solved goal -/

theorem erase_names_erase (m : proof_map) (n : name) (ns : List name) :
    erase_names (m.erase n) ns = erase_names m (n :: ns) := by
  funext x
  simp only [erase_names, proof_map.erase, List.mem_cons]
  by_cases h1 : x ∈ ns <;> by_cases h2 : x = n <;> simp [h1, h2]

theorem erase_names_nil (m : proof_map) : erase_names m [] = m := by
  funext x
  simp [erase_names]

theorem pb_args_eq (K : Collab) (m : proof_map) (l : arg_list) (args : List expr)
    (new_m : proof_map) :
    pb_args K m l (args, new_m) =
      match arg_values K m l with
      | none => none
      | some vs => some (args ++ vs, erase_names new_m (consumed_names l)) := by
  induction l generalizing args new_m with
  | nil => simp [pb_args, arg_values, consumed_names, erase_names_nil]
  | cons p2 l ih =>
    obtain ⟨o1, o2⟩ := p2
    cases o1 with
    | some a =>
      simp only [pb_args, pb_arg_step, arg_values, arg_value, consumed_names, ih]
      cases arg_values K m l <;> simp
    | none =>
      cases o2 with
      | none => simp [pb_args, pb_arg_step, arg_values, arg_value]
      | some parg =>
        cases hf : find m parg.1 with
        | none => simp [pb_args, pb_arg_step, arg_values, arg_value, hf]
        | some pr =>
          simp only [pb_args, pb_arg_step, arg_values, arg_value, consumed_names, hf, ih,
            erase_names_erase]
          cases arg_values K m l <;> simp

theorem arg_values_append (K : Collab) (m : proof_map) (l1 l2 : arg_list) :
    arg_values K m (l1 ++ l2) =
      match arg_values K m l1, arg_values K m l2 with
      | some v1, some v2 => some (v1 ++ v2)
      | _, _ => none := by
  induction l1 with
  | nil => cases h : arg_values K m l2 <;> simp [arg_values, h]
  | cons p2 l1 ih =>
    simp only [List.cons_append, arg_values, List.append_eq]
    rw [ih]
    cases arg_value K m p2 <;> cases arg_values K m l1 <;> cases arg_values K m l2 <;> simp

theorem arg_values_reverse (K : Collab) (m : proof_map) (l : arg_list) :
    arg_values K m l.reverse =
      match arg_values K m l with
      | none => none
      | some vs => some vs.reverse := by
  induction l with
  | nil => simp [arg_values]
  | cons p2 l ih =>
    simp only [List.reverse_cons, arg_values_append, ih, arg_values]
    cases arg_value K m p2 <;> cases arg_values K m l <;> simp

theorem pb_goal_step_eq (K : Collab) (th : expr) (m new_m : proof_map) (gname : name)
    (l : arg_list) :
    pb_goal_step K th m new_m (gname, l) =
      match reconstructed K th m l with
      | none => none
      | some app => some ((erase_names new_m (consumed_names l)).insert gname app) := by
  simp only [pb_goal_step, pb_args_eq, reconstructed, arg_values_reverse]
  cases arg_values K m l <;> simp [reverse_from_1]

/-! ## The placeholder walk and the recorded list -/

theorem walk_step_l (K : Collab) (env : K.Env) (subst : K.Subst) (gname : name) (g : goal)
    (st : walk_state K) (mvar : expr) :
    ∃ e, (walk_step K env subst gname g st mvar).l = e :: st.l := by
  unfold walk_step
  dsimp only
  split
  · exact ⟨_, rfl⟩
  · split
    · exact ⟨_, rfl⟩
    · exact ⟨_, rfl⟩

theorem walk_append (K : Collab) (env : K.Env) (subst : K.Subst) (gname : name) (g : goal)
    (st : walk_state K) (as bs : List expr) :
    walk K env subst gname g st (as ++ bs) =
      walk K env subst gname g (walk K env subst gname g st as) bs := by
  simp [walk, List.foldl_append]

theorem walk_l (K : Collab) (env : K.Env) (subst : K.Subst) (gname : name) (g : goal)
    (mvars : List expr) (st : walk_state K) :
    ∃ front, (walk K env subst gname g st mvars).l = front ++ st.l ∧
      front.length = mvars.length := by
  induction mvars generalizing st with
  | nil => exact ⟨[], rfl, rfl⟩
  | cons mvar rest ih =>
    obtain ⟨front, h1, h2⟩ := ih (walk_step K env subst gname g st mvar)
    obtain ⟨e, he⟩ := walk_step_l K env subst gname g st mvar
    simp only [walk, List.foldl_cons] at h1 ⊢
    refine ⟨front ++ [e], ?_, by simp [h2]⟩
    rw [h1, he]
    simp

theorem mk_mvars_length (K : Collab) (num : Nat) : (mk_mvars K num).length = num := by
  simp [mk_mvars]

/-- The recorded list, read from its end, lists the entries in the order in
which the walk recorded them. -/
theorem walk_l_reverse_get (K : Collab) (env : K.Env) (subst : K.Subst) (gname : name)
    (g : goal) (mvars : List expr) (st : walk_state K) (hst : st.l = []) (i : Nat)
    (hi : i < mvars.length) :
    ∃ e, recorded_at K env subst gname g st mvars i = some e ∧
      (walk K env subst gname g st mvars).l.reverse[i]? = some e := by
  have hsplit : mvars = mvars.take i ++ mvars[i] :: mvars.drop (i + 1) := by
    rw [← List.drop_eq_getElem_cons hi]
    exact (List.take_append_drop i mvars).symm
  have htake : mvars.take (i + 1) = mvars.take i ++ [mvars[i]] := by
    rw [List.take_succ, List.getElem?_eq_getElem hi]
    rfl
  obtain ⟨front1, h1, h1len⟩ := walk_l K env subst gname g (mvars.take i) st
  obtain ⟨e, he⟩ := walk_step_l K env subst gname g
    (walk K env subst gname g st (mvars.take i)) (mvars[i])
  obtain ⟨front2, h2, _⟩ := walk_l K env subst gname g (mvars.drop (i + 1))
    (walk_step K env subst gname g (walk K env subst gname g st (mvars.take i))
      (mvars[i]))
  have hlen : front1.length = i := by
    rw [h1len, List.length_take]
    omega
  refine ⟨e, ?_, ?_⟩
  · unfold recorded_at
    rw [htake, walk_append]
    simp only [walk, List.foldl_cons, List.foldl_nil] at he ⊢
    rw [he]
    rfl
  · have hw : (walk K env subst gname g st mvars).l = front2 ++ e :: front1 := by
      conv_lhs => rw [hsplit]
      rw [walk_append]
      simp only [walk, List.foldl_cons] at h2 he h1 ⊢
      rw [h2, he, h1, hst, List.append_nil]
    rw [hw]
    simp only [List.reverse_append, List.reverse_cons, List.append_assoc, List.singleton_append]
    rw [List.getElem?_append_right (by simp [hlen])]
    simp [hlen]

theorem arg_values_length (K : Collab) (m : proof_map) (l : arg_list) (vs : List expr)
    (h : arg_values K m l = some vs) : vs.length = l.length := by
  induction l generalizing vs with
  | nil => simp [arg_values] at h; subst h; rfl
  | cons p2 l ih =>
    simp only [arg_values] at h
    cases h1 : arg_value K m p2 <;> cases h2 : arg_values K m l <;> simp [h1, h2] at h
    subst h
    simp [ih _ h2]

theorem arg_values_get (K : Collab) (m : proof_map) (l : arg_list) (vs : List expr)
    (h : arg_values K m l = some vs) (i : Nat) (e : Option expr × Option proposition_arg)
    (he : l[i]? = some e) : vs[i]? = arg_value K m e := by
  induction l generalizing vs i with
  | nil => simp at he
  | cons p2 l ih =>
    simp only [arg_values] at h
    cases h1 : arg_value K m p2 <;> cases h2 : arg_values K m l <;> simp [h1, h2] at h
    subst h
    cases i with
    | zero =>
      simp at he
      subst he
      simp [h1]
    | succ j =>
      simp at he
      simpa using ih _ h2 j he

/-! ## The goal loop and the reconstruction plan -/

theorem from_walk_mono (K : Collab) (env : K.Env) (th_type : expr) (mvars : List expr)
    (gs : goals) (p : name × goal) (e : name × arg_list)
    (h : from_walk K env th_type mvars gs e) : from_walk K env th_type mvars (p :: gs) e := by
  obtain ⟨g, subst, st0, h1, h2⟩ := h
  exact ⟨g, subst, st0, List.mem_cons_of_mem _ h1, h2⟩

theorem goal_step_proof_info (K : Collab) (env : K.Env) (th_type : expr) (mvars : List expr)
    (all : Bool) (st : loop_state K) (p : name × goal) (e : name × arg_list)
    (h : e ∈ (goal_step K env th_type mvars all st p).proof_info) :
    e ∈ st.proof_info ∨ from_walk K env th_type mvars [p] e := by
  unfold goal_step at h
  split at h
  · split at h
    · rename_i subst _
      simp only [List.mem_cons] at h
      rcases h with h | h
      · right
        subst h
        exact ⟨p.2, subst, walk_init K th_type st, by simp, rfl, rfl, rfl, rfl⟩
      · exact Or.inl h
    · exact Or.inl h
  · exact Or.inl h

theorem foldl_goal_step_proof_info (K : Collab) (env : K.Env) (th_type : expr)
    (mvars : List expr) (all : Bool) (gs : goals) (st : loop_state K) (e : name × arg_list)
    (h : e ∈ (gs.foldl (goal_step K env th_type mvars all) st).proof_info) :
    e ∈ st.proof_info ∨ from_walk K env th_type mvars gs e := by
  induction gs generalizing st with
  | nil => exact Or.inl h
  | cons p gs ih =>
    rcases ih _ h with h1 | h1
    · rcases goal_step_proof_info K env th_type mvars all st p e h1 with h2 | h2
      · exact Or.inl h2
      · right
        obtain ⟨g, subst, st0, k1, k2⟩ := h2
        refine ⟨g, subst, st0, ?_, k2⟩
        simp only [List.mem_singleton] at k1
        rw [k1]
        exact List.mem_cons_self _ _
    · exact Or.inr (from_walk_mono K env th_type mvars gs p e h1)

theorem apply_loop_from_walk (K : Collab) (env : K.Env) (s : proof_state K) (th_type : expr)
    (all : Bool) (e : name × arg_list) (h : e ∈ (apply_loop K env s th_type all).proof_info) :
    from_walk K env th_type (mk_mvars K (count_pis th_type)) s.get_goals e := by
  rcases foldl_goal_step_proof_info K env th_type _ all s.get_goals _ e h with h1 | h1
  · simp [loop_init] at h1
  · exact h1

/-! ## The extra hypotheses of a subgoal -/

theorem open_binders_extra (K : Collab) (env : K.Env) (menv : K.Menv) (fuel : Nat)
    (hs extra : hypotheses) (t : expr) :
    (open_binders K env menv fuel ⟨hs, extra, t⟩).extra_hs =
      (opened_hyps K env menv fuel hs t).reverse ++ extra := by
  induction fuel generalizing hs extra t with
  | zero => simp [open_binders, opened_hyps]
  | succ n ih =>
    cases t <;> simp [open_binders, opened_hyps, ih]

theorem opened_hyps_length (K : Collab) (env : K.Env) (menv : K.Menv) (n : Nat)
    (hs : hypotheses) (t : expr) (h : count_pis t = n) :
    (opened_hyps K env menv n hs t).length = n := by
  induction n generalizing hs t with
  | zero => simp [opened_hyps]
  | succ n ih =>
    cases t <;> simp [count_pis] at h
    rename_i x d b
    simp only [opened_hyps, List.length_cons, Nat.add_right_cancel_iff]
    apply ih
    rw [K.instantiate_constant_pis, h]

/-- The loop of lines 82-88 ends on a term that is not a Pi: the bound
`count_pis arg_type` on the iterations is the number the loop makes. -/
theorem open_binders_not_pi (K : Collab) (env : K.Env) (menv : K.Menv) (n : Nat)
    (hs extra : hypotheses) (t : expr) (h : count_pis t = n) :
    is_pi (open_binders K env menv n ⟨hs, extra, t⟩).arg_type = false := by
  induction n generalizing hs extra t with
  | zero => cases t <;> simp [count_pis] at h <;> simp [open_binders, is_pi]
  | succ n ih =>
    cases t <;> simp [count_pis] at h
    rename_i x d b
    simp only [open_binders]
    apply ih
    rw [K.instantiate_constant_pis, h]

theorem abstract_extra_reverse (K : Collab) (opened : hypotheses) (pr : expr) :
    abstract_extra K opened.reverse pr = nest_Fun K opened pr := by
  induction opened with
  | nil => rfl
  | cons p rest ih =>
    obtain ⟨n, d⟩ := p
    simp only [abstract_extra, List.reverse_cons, List.foldl_append, List.foldl_cons,
      List.foldl_nil, nest_Fun] at ih ⊢
    rw [ih]

/-- C8: when the walk records a parameter as a deferred subgoal, the `k`
leading binders of its domain type are opened one by one, introducing the
hypotheses `(n1, d1), ..., (nk, dk)` in that order (`opened_hyps`, of length
`k`); the entry holds them in reverse, and the argument the proof builder
places for it is `Fun n1 d1 (Fun n2 d2 (... (Fun nk dk pr)))`, `pr` being the
proof found for the subgoal's name in the input proof map; for `k = 0` it is
`pr` itself. -/
theorem subgoal_proof_abstracted_in_order (K : Collab) (env : K.Env) (subst : K.Subst)
    (gname : name) (g : goal) (st : walk_state K) (mvar : expr)
    (hsol : K.apply subst mvar = mvar)
    (hflex : K.is_flex_proposition env (abst_domain st.th_type_c) st.new_menv = true) :
    (opened_hyps K env st.new_menv (count_pis (abst_domain st.th_type_c)) g.get_hypotheses
        (abst_domain st.th_type_c)).length = count_pis (abst_domain st.th_type_c) ∧
    (walk_step K env subst gname g st mvar).l =
      (none, some (name.num gname st.new_goal_idx,
        (opened_hyps K env st.new_menv (count_pis (abst_domain st.th_type_c)) g.get_hypotheses
          (abst_domain st.th_type_c)).reverse)) :: st.l ∧
    ∀ (m : proof_map) (pr : expr) (args : List expr) (new_m : proof_map),
      find m (name.num gname st.new_goal_idx) = some pr →
      pb_arg_step K m (args, new_m) (none, some (name.num gname st.new_goal_idx,
        (opened_hyps K env st.new_menv (count_pis (abst_domain st.th_type_c)) g.get_hypotheses
          (abst_domain st.th_type_c)).reverse)) =
        some (args ++ [nest_Fun K
          (opened_hyps K env st.new_menv (count_pis (abst_domain st.th_type_c)) g.get_hypotheses
            (abst_domain st.th_type_c)) pr], new_m.erase (name.num gname st.new_goal_idx)) := by
  refine ⟨opened_hyps_length K env _ _ _ _ rfl, ?_, ?_⟩
  · unfold walk_step
    simp only [hsol, ne_eq, not_true_eq_false, if_false, hflex, if_true, open_binders_extra,
      List.append_nil]
  · intro m pr args new_m hfind
    simp only [pb_arg_step, hfind, abstract_extra_reverse]


theorem subgoal_proof_abstracted_in_order_witness :
    sampleK.apply sample_subst_a (expr.metavar (name.num (name.str name.anonymous "tmp") 1)) =
      expr.metavar (name.num (name.str name.anonymous "tmp") 1) ∧
    sampleK.is_flex_proposition sample_env (abst_domain sample_walk_state3.th_type_c)
      sample_walk_state3.new_menv = true ∧
    (walk_step sampleK sample_env sample_subst_a (sample_name "g1") (sample_goal "a")
      sample_walk_state3 (expr.metavar (name.num (name.str name.anonymous "tmp") 1))).l =
      (none, some (name.num (sample_name "g1") 1, [(sample_name "y", sample_const "B")])) ::
        sample_walk_state3.l ∧
    ∀ (m : proof_map) (pr : expr) (args : List expr) (new_m : proof_map),
      find m (name.num (sample_name "g1") 1) = some pr →
      pb_arg_step sampleK m (args, new_m)
        (none, some (name.num (sample_name "g1") 1, [(sample_name "y", sample_const "B")])) =
        some (args ++ [expr.lambda (sample_name "y") (sample_const "B") pr],
          new_m.erase (name.num (sample_name "g1") 1)) :=
  ⟨by decide, by decide,
    (subgoal_proof_abstracted_in_order sampleK sample_env sample_subst_a (sample_name "g1")
      (sample_goal "a") sample_walk_state3
      (expr.metavar (name.num (name.str name.anonymous "tmp") 1)) (by decide) (by decide)).2⟩

/-! ## The proof builder: the whole plan -/

theorem plan_find_none (n : name) (plan : List (name × arg_list))
    (h : n ∉ plan.map Prod.fst) : plan_find n plan = none := by
  induction plan with
  | nil => rfl
  | cons p1 rest ih =>
    simp only [List.map_cons, List.mem_cons, not_or] at h
    simp only [plan_find]
    rw [if_neg (fun hh => h.1 hh.symm)]
    exact ih h.2

theorem plan_find_mem (plan : List (name × arg_list)) (e : name × arg_list)
    (hnd : (plan.map Prod.fst).Nodup) (he : e ∈ plan) : plan_find e.1 plan = some e.2 := by
  induction plan with
  | nil => simp at he
  | cons p1 rest ih =>
    simp only [List.map_cons, List.nodup_cons] at hnd
    simp only [plan_find]
    rcases List.mem_cons.mp he with h | h
    · subst h
      simp
    · have hne : p1.1 ≠ e.1 := by
        intro hh
        apply hnd.1
        rw [hh]
        exact List.mem_map_of_mem _ h
      rw [if_neg hne]
      exact ih hnd.2 h

/-- The map built by the loop of lines 114-136, when no solved goal of the
plan carries the name of a consumed subgoal and the solved goals have
distinct names. -/
theorem pb_goals_eq (K : Collab) (th : expr) (m : proof_map) (plan : List (name × arg_list))
    (hnd : (plan.map Prod.fst).Nodup) (hfresh : ∀ e ∈ plan, e.1 ∉ plan_consumed plan)
    (new_m : proof_map) :
    pb_goals K th m plan new_m =
      if plan_ok K th m plan then some (overlay_map K th plan m new_m) else none := by
  induction plan generalizing new_m with
  | nil =>
    simp only [pb_goals, plan_ok, List.all_nil, if_true]
    congr 1
  | cons p1 rest ih =>
    obtain ⟨gname, l⟩ := p1
    simp only [List.map_cons, List.nodup_cons] at hnd
    have hfresh1 : gname ∉ plan_consumed rest := by
      have := hfresh (gname, l) (List.mem_cons_self _ _)
      simp only [plan_consumed, List.mem_append, not_or] at this
      exact this.2
    have hfresh2 : ∀ e ∈ rest, e.1 ∉ plan_consumed rest := by
      intro e he
      have := hfresh e (List.mem_cons_of_mem _ he)
      simp only [plan_consumed, List.mem_append, not_or] at this
      exact this.2
    cases hrec : reconstructed K th m l with
    | none =>
      have hstep : pb_goal_step K th m new_m (gname, l) = none := by
        rw [pb_goal_step_eq, hrec]
      simp [pb_goals, hstep, plan_ok, hrec]
    | some app =>
      have hstep : pb_goal_step K th m new_m (gname, l) =
          some ((erase_names new_m (consumed_names l)).insert gname app) := by
        rw [pb_goal_step_eq, hrec]
      simp only [pb_goals, hstep, plan_ok, List.all_cons, hrec, Option.isSome_some,
        Bool.true_and]
      rw [ih hnd.2 hfresh2]
      simp only [plan_ok]
      split
      · congr 1
        funext n
        simp only [overlay_map, plan_find, plan_consumed, List.mem_append]
        by_cases hn : gname = n
        · subst hn
          rw [plan_find_none _ rest hnd.1]
          simp [hfresh1, proof_map.insert, hrec]
        · rw [if_neg hn]
          cases plan_find n rest with
          | some l1 => rfl
          | none =>
            have hn1 : ¬ n = gname := fun hh => hn hh.symm
            by_cases h1 : n ∈ plan_consumed rest <;> by_cases h2 : n ∈ consumed_names l <;>
              simp [h1, h2, proof_map.insert, erase_names, hn1]
      · rfl

/-! ## The names of the solved goals -/

theorem goal_step_proof_info_names (K : Collab) (env : K.Env) (th_type : expr)
    (mvars : List expr) (all : Bool) (st : loop_state K) (p : name × goal) :
    (goal_step K env th_type mvars all st p).proof_info.map Prod.fst =
        st.proof_info.map Prod.fst ∨
    (goal_step K env th_type mvars all st p).proof_info.map Prod.fst =
        p.1 :: st.proof_info.map Prod.fst := by
  unfold goal_step
  split
  · split
    · exact Or.inr rfl
    · exact Or.inl rfl
  · exact Or.inl rfl

theorem foldl_goal_step_proof_info_names (K : Collab) (env : K.Env) (th_type : expr)
    (mvars : List expr) (all : Bool) (gs : goals) (st : loop_state K) :
    ∃ sub : List name, sub.Sublist (gs.map Prod.fst) ∧
      (gs.foldl (goal_step K env th_type mvars all) st).proof_info.map Prod.fst =
        sub.reverse ++ st.proof_info.map Prod.fst := by
  induction gs generalizing st with
  | nil => exact ⟨[], List.Sublist.refl _, rfl⟩
  | cons p gs ih =>
    obtain ⟨sub, h1, h2⟩ := ih (goal_step K env th_type mvars all st p)
    simp only [List.foldl_cons, List.map_cons]
    rcases goal_step_proof_info_names K env th_type mvars all st p with h | h
    · exact ⟨sub, List.Sublist.cons _ h1, by rw [h2, h]⟩
    · exact ⟨p.1 :: sub, List.Sublist.cons₂ _ h1, by rw [h2, h]; simp⟩

theorem apply_loop_proof_info_nodup (K : Collab) (env : K.Env) (s : proof_state K)
    (th_type : expr) (all : Bool) (hnd : (s.get_goals.map Prod.fst).Nodup) :
    ((apply_loop K env s th_type all).proof_info.map Prod.fst).Nodup := by
  obtain ⟨sub, h1, h2⟩ := foldl_goal_step_proof_info_names K env th_type
    (mk_mvars K (count_pis th_type)) all s.get_goals (loop_init K s.get_menv th_type)
  unfold apply_loop
  rw [h2]
  simp only [loop_init, List.map_nil, List.append_nil, List.nodup_reverse]
  exact List.Nodup.sublist h1 hnd

theorem apply_tactic_pb (K : Collab) (env : K.Env) (s s1 : proof_state K) (th th_type : expr)
    (all : Bool) (h : apply_tactic K env s th th_type all = some s1) :
    s1.get_proof_builder =
      new_pb K s.get_proof_builder th (apply_loop K env s th_type all).proof_info ∧
    s1.get_goals = (apply_loop K env s th_type all).new_goals_buf := by
  unfold apply_tactic at h
  split at h
  · cases h
  · dsimp only at h
    split at h
    · cases h
      exact ⟨rfl, rfl⟩
    · cases h


/-- C7 (amended): for every returned state whose input state has pairwise
distinct goal names and in which no solved goal carries the name of a
consumed subgoal, and for every solved goal `gname` with recorded list `l`:
the new proof builder on `(m, a)` fails when the loop of lines 114-136 throws
(a subgoal proof is missing in `m`), and otherwise is the previous proof
builder on the map `new_m` built by that loop, in which `gname` is bound to
`mk_app` of the list whose head is the fact `th` and whose other elements are
the arguments in parameter order, one per leading Pi binder of `th_type`: the
`i`-th argument is the value of the entry the walk recorded for the `i`-th
parameter.  The cons accumulation of the recorded list and the reversal of
the argument buffer cancel out. -/
theorem proof_builder_args_in_parameter_order (K : Collab) (env : K.Env) (s s1 : proof_state K)
    (th th_type : expr) (all : Bool) (h : apply_tactic K env s th th_type all = some s1)
    (hnd : (s.get_goals.map Prod.fst).Nodup)
    (hfresh : ∀ e ∈ (apply_loop K env s th_type all).proof_info,
      e.1 ∉ plan_consumed (apply_loop K env s th_type all).proof_info)
    (gname : name) (l : arg_list)
    (hmem : (gname, l) ∈ (apply_loop K env s th_type all).proof_info) :
    ∃ (g : goal) (subst : K.Subst) (st0 : walk_state K),
      (gname, g) ∈ s.get_goals ∧ st0.l = [] ∧ st0.th_type_c = th_type ∧
      l = (walk K env subst gname g st0 (mk_mvars K (count_pis th_type))).l ∧
      ∀ (m : proof_map) (a : K.Assignment),
        (pb_goals K th m (apply_loop K env s th_type all).proof_info m = none →
          s1.get_proof_builder m a = none) ∧
        ∀ new_m, pb_goals K th m (apply_loop K env s th_type all).proof_info m = some new_m →
          s1.get_proof_builder m a = s.get_proof_builder new_m a ∧
          ∃ args, arg_values K m l.reverse = some args ∧
            new_m gname = some (K.mk_app (th :: args)) ∧
            args.length = count_pis th_type ∧
            ∀ i, i < count_pis th_type →
              ∃ e, recorded_at K env subst gname g st0 (mk_mvars K (count_pis th_type)) i =
                  some e ∧
                args[i]? = arg_value K m e := by
  obtain ⟨g, subst, st0, h1, h2, h3, -, h5⟩ := apply_loop_from_walk K env s th_type all _ hmem
  dsimp only at h1 h5
  have hnd1 := apply_loop_proof_info_nodup K env s th_type all hnd
  have hpb := (apply_tactic_eq_some K env s s1 th th_type all h).2.2.2.2.2.1
  refine ⟨g, subst, st0, h1, h2, h3, h5, ?_⟩
  intro m a
  refine ⟨?_, ?_⟩
  · intro hnone
    rw [hpb]
    simp only [new_pb, hnone]
  · intro new_m hsome
    refine ⟨?_, ?_⟩
    · rw [hpb]
      simp only [new_pb, hsome]
    · rw [pb_goals_eq K th m _ hnd1 hfresh m] at hsome
      split at hsome
      · rename_i hok
        simp only [Option.some.injEq] at hsome
        have hrec : (reconstructed K th m l).isSome = true := by
          simp only [plan_ok, List.all_eq_true] at hok
          exact hok (gname, l) hmem
        obtain ⟨app, happ⟩ := Option.isSome_iff_exists.mp hrec
        have hbind : new_m gname = some app := by
          rw [← hsome]
          simp only [overlay_map, plan_find_mem _ (gname, l) hnd1 hmem, happ]
        unfold reconstructed at happ
        cases hargs : arg_values K m l.reverse with
        | none => simp [hargs] at happ
        | some args =>
          simp only [hargs, Option.some.injEq] at happ
          refine ⟨args, rfl, by rw [hbind, happ], ?_, ?_⟩
          · obtain ⟨front, hf1, hf2⟩ := walk_l K env subst gname g
              (mk_mvars K (count_pis th_type)) st0
            have hlen : l.length = count_pis th_type := by
              rw [h5, hf1, h2, List.append_nil, hf2, mk_mvars_length]
            rw [arg_values_length K m _ _ hargs, List.length_reverse, hlen]
          · intro i hi
            obtain ⟨e, he1, he2⟩ := walk_l_reverse_get K env subst gname g
              (mk_mvars K (count_pis th_type)) st0 h2 i (by rw [mk_mvars_length]; exact hi)
            rw [← h5] at he2
            exact ⟨e, he1, arg_values_get K m _ _ hargs i e he2⟩
      · cases hsome

theorem proof_builder_args_in_parameter_order_witness :
    apply_tactic sampleK sample_env sample_state0 (sample_const "th2") sample_type2 false =
      some sample_state1 ∧
    (sample_state0.get_goals.map Prod.fst).Nodup ∧
    (∀ e ∈ (apply_loop sampleK sample_env sample_state0 sample_type2 false).proof_info,
      e.1 ∉ plan_consumed
        (apply_loop sampleK sample_env sample_state0 sample_type2 false).proof_info) ∧
    (sample_name "main", [(none, some (name.num (sample_name "main") 1, [])),
        (some (sample_const "a"), none)]) ∈
      (apply_loop sampleK sample_env sample_state0 sample_type2 false).proof_info ∧
    ∃ new_m, pb_goals sampleK (sample_const "th2") sample_proofs1
        (apply_loop sampleK sample_env sample_state0 sample_type2 false).proof_info
        sample_proofs1 = some new_m ∧
      sample_state1.get_proof_builder sample_proofs1 () =
        sample_state0.get_proof_builder new_m () ∧
      new_m (sample_name "main") =
        some (expr.app (expr.app (sample_const "th2") (sample_const "a")) (sample_const "pr")) := by
  refine ⟨rfl, by decide, by decide, by decide, ?_⟩
  obtain ⟨_, _, _, _, _, _, _, hall⟩ := proof_builder_args_in_parameter_order sampleK sample_env
    sample_state0 sample_state1 (sample_const "th2") sample_type2 false rfl (by decide)
    (by decide) (sample_name "main")
    [(none, some (name.num (sample_name "main") 1, [])), (some (sample_const "a"), none)]
    (by decide)
  cases hpb : pb_goals sampleK (sample_const "th2") sample_proofs1
      (apply_loop sampleK sample_env sample_state0 sample_type2 false).proof_info
      sample_proofs1 with
  | none =>
    have hs : (pb_goals sampleK (sample_const "th2") sample_proofs1
      (apply_loop sampleK sample_env sample_state0 sample_type2 false).proof_info
      sample_proofs1).isSome = true := by decide
    rw [hpb] at hs
    cases hs
  | some new_m =>
    obtain ⟨h1, args, h2, h3, -, -⟩ := (hall sample_proofs1 ()).2 new_m hpb
    have hargs : arg_values sampleK sample_proofs1
        [(some (sample_const "a"), none),
          (none, some (name.num (sample_name "main") 1, []))] =
        some [sample_const "a", sample_const "pr"] := by decide
    have h2a : arg_values sampleK sample_proofs1
        [(some (sample_const "a"), none),
          (none, some (name.num (sample_name "main") 1, []))] = some args := h2
    rw [hargs] at h2a
    cases h2a
    exact ⟨new_m, rfl, h1, h3⟩

/-- C7 (counterexample): the state `sample_clash_state` has the goals
`g : ⊢ P` and `g.1 : ⊢ P`; `th4 : Pi (h : Q), P` applied with `all = true` solves
both, and the entry recorded for the solved goal `g.1` is the deferred
subgoal `g.1.1`.  For the proof map holding `pr1` for `g.1` and `pr2` for
`g.1.1` the arguments of the application for `g.1` are `[pr2]`, but the map
the new proof builder hands to the previous one binds `g.1` to nothing: the
binding is erased again when the subgoal `g.1` of `g` is consumed.  The
previous proof builder, which returns the proof of `g.1`, finds none. -/
theorem proof_builder_binding_erased :
    apply_tactic sampleK sample_env sample_clash_state (sample_const "th4") sample_type4 true =
      some sample_clash_state1 ∧
    (name.num (sample_name "g") 1,
        [(none, some (name.num (name.num (sample_name "g") 1) 1, []))]) ∈
      (apply_loop sampleK sample_env sample_clash_state sample_type4 true).proof_info ∧
    arg_values sampleK sample_clash_proofs
      [((none : Option expr), some (name.num (name.num (sample_name "g") 1) 1,
        ([] : hypotheses)))] = some [sample_const "pr2"] ∧
    (pb_goals sampleK (sample_const "th4") sample_clash_proofs
      (apply_loop sampleK sample_env sample_clash_state sample_type4 true).proof_info
      sample_clash_proofs).map (fun new_m => new_m (name.num (sample_name "g") 1)) =
      some none ∧
    sample_clash_state1.get_proof_builder sample_clash_proofs () = none ∧
    ¬ (∃ new_m, pb_goals sampleK (sample_const "th4") sample_clash_proofs
        (apply_loop sampleK sample_env sample_clash_state sample_type4 true).proof_info
        sample_clash_proofs = some new_m ∧
      ∃ args, new_m (name.num (sample_name "g") 1) =
        some (sampleK.mk_app (sample_const "th4" :: args))) := by
  have hmap : (pb_goals sampleK (sample_const "th4") sample_clash_proofs
      (apply_loop sampleK sample_env sample_clash_state sample_type4 true).proof_info
      sample_clash_proofs).map (fun new_m => new_m (name.num (sample_name "g") 1)) =
      some none := by decide
  refine ⟨rfl, by decide, by decide, hmap, by decide, ?_⟩
  rintro ⟨new_m, h1, args, h2⟩
  rw [h1, Option.map_some', h2] at hmap
  cases hmap



/-- The proof builder of a returned state is the previous proof builder on
the updated map, when no solved goal carries the name of a consumed subgoal
and the goals of the input state have distinct names. -/
theorem apply_tactic_pb_updated_map (K : Collab) (env : K.Env) (s s1 : proof_state K)
    (th th_type : expr) (all : Bool) (h : apply_tactic K env s th th_type all = some s1)
    (hnd : (s.get_goals.map Prod.fst).Nodup)
    (hfresh : ∀ e ∈ (apply_loop K env s th_type all).proof_info,
      e.1 ∉ plan_consumed (apply_loop K env s th_type all).proof_info)
    (m : proof_map) (a : K.Assignment) :
    s1.get_proof_builder m a =
      match updated_map K th (apply_loop K env s th_type all).proof_info m with
      | none => none
      | some m1 => s.get_proof_builder m1 a := by
  have hnd1 := apply_loop_proof_info_nodup K env s th_type all hnd
  have hpb := pb_goals_eq K th m _ hnd1 hfresh m
  rw [(apply_tactic_pb K env s s1 th th_type all h).1]
  unfold new_pb updated_map
  cases hok : plan_ok K th m (apply_loop K env s th_type all).proof_info with
  | false =>
    rw [hok] at hpb
    simp [hpb]
  | true =>
    rw [hok] at hpb
    simp [hpb]

/-- C9 (amended): for every returned state whose input state has pairwise
distinct goal names and in which no solved goal carries the name of a
consumed subgoal, `new_pb(m, a) = pb(m1, a)` for every proof map `m` and
assignment `a`, where `pb` is the input proof builder, `a` is passed through
unchanged and `m1` is the updated map: every solved goal's name is bound to
its reconstructed application, every consumed subgoal's entry is removed,
the subgoal proofs are looked up in the original `m`, and every other entry
of `m` is unchanged (both sides are `none`, an exception, when a subgoal
proof is missing in `m`). -/
theorem new_proof_builder_eq (K : Collab) (env : K.Env) (s s1 : proof_state K)
    (th th_type : expr) (all : Bool) (h : apply_tactic K env s th th_type all = some s1)
    (hnd : (s.get_goals.map Prod.fst).Nodup)
    (hfresh : ∀ e ∈ (apply_loop K env s th_type all).proof_info,
      e.1 ∉ plan_consumed (apply_loop K env s th_type all).proof_info) :
    (∀ m a, s1.get_proof_builder m a =
      match updated_map K th (apply_loop K env s th_type all).proof_info m with
      | none => none
      | some m1 => s.get_proof_builder m1 a) ∧
    ∀ m m1, updated_map K th (apply_loop K env s th_type all).proof_info m = some m1 →
      (∀ e ∈ (apply_loop K env s th_type all).proof_info,
        ∃ app, reconstructed K th m e.2 = some app ∧ m1 e.1 = some app) ∧
      (∀ n ∈ plan_consumed (apply_loop K env s th_type all).proof_info, m1 n = none) ∧
      (∀ n, n ∉ (apply_loop K env s th_type all).proof_info.map Prod.fst →
        n ∉ plan_consumed (apply_loop K env s th_type all).proof_info → m1 n = m n) := by
  have hnd1 := apply_loop_proof_info_nodup K env s th_type all hnd
  refine ⟨apply_tactic_pb_updated_map K env s s1 th th_type all h hnd hfresh, ?_⟩
  intro m m1 hm1
  unfold updated_map at hm1
  split at hm1
  · rename_i hok
    cases hm1
    refine ⟨?_, ?_, ?_⟩
    · intro e he
      have hsome : (reconstructed K th m e.2).isSome = true := by
        simp only [plan_ok, List.all_eq_true] at hok
        exact hok e he
      obtain ⟨app, happ⟩ := Option.isSome_iff_exists.mp hsome
      refine ⟨app, happ, ?_⟩
      simp only [overlay_map, plan_find_mem _ e hnd1 he, happ]
    · intro n hn
      have hns : n ∉ (apply_loop K env s th_type all).proof_info.map Prod.fst := by
        intro hmem
        obtain ⟨e, he1, he2⟩ := List.mem_map.mp hmem
        apply hfresh e he1
        rw [he2]
        exact hn
      simp only [overlay_map, plan_find_none n _ hns, hn, if_true]
    · intro n hn1 hn2
      simp only [overlay_map, plan_find_none n _ hn1, hn2, if_false]
  · cases hm1

theorem new_proof_builder_eq_witness :
    apply_tactic sampleK sample_env sample_state1 (sample_const "th6") sample_type6 false =
      some sample_state2 ∧
    (sample_state1.get_goals.map Prod.fst).Nodup ∧
    (∀ e ∈ (apply_loop sampleK sample_env sample_state1 sample_type6 false).proof_info,
      e.1 ∉ plan_consumed
        (apply_loop sampleK sample_env sample_state1 sample_type6 false).proof_info) ∧
    ∀ m a, sample_state2.get_proof_builder m a =
      match updated_map sampleK (sample_const "th6")
        (apply_loop sampleK sample_env sample_state1 sample_type6 false).proof_info m with
      | none => none
      | some m1 => sample_state1.get_proof_builder m1 a :=
  ⟨rfl, by decide, by decide,
    (new_proof_builder_eq sampleK sample_env sample_state1 sample_state2 (sample_const "th6")
      sample_type6 false rfl (by decide) (by decide)).1⟩

/-- C9 (counterexample): the state `sample_clash_state` has the goals
`g : ⊢ P` and `g.1 : ⊢ P`, of distinct names; `th4 : Pi (h : Q), P` applied
with `all = true` solves both and returns the state with the goals `g.1` and
`g.1.1`.  For the proof map holding `pr1` for `g.1` and `pr2` for `g.1.1`, the
map handed to the previous proof builder has no entry for the solved goal
`g.1` (it is erased as the subgoal consumed for `g`), although its
reconstruction is `th4 pr2`; so the new proof builder fails, while the previous
proof builder on the updated map of the claim returns `th4 pr2`. -/
theorem new_proof_builder_name_clash :
    apply_tactic sampleK sample_env sample_clash_state (sample_const "th4") sample_type4 true =
      some sample_clash_state1 ∧
    (sample_clash_state.get_goals.map Prod.fst).Nodup ∧
    (apply_loop sampleK sample_env sample_clash_state sample_type4 true).proof_info.map Prod.fst =
      [name.num (sample_name "g") 1, sample_name "g"] ∧
    sample_clash_state1.get_goals.map Prod.fst =
      [name.num (sample_name "g") 1, name.num (name.num (sample_name "g") 1) 1] ∧
    (pb_goals sampleK (sample_const "th4") sample_clash_proofs
      (apply_loop sampleK sample_env sample_clash_state sample_type4 true).proof_info
      sample_clash_proofs).map (fun m1 => m1 (name.num (sample_name "g") 1)) = some none ∧
    sample_clash_state1.get_proof_builder sample_clash_proofs () = none ∧
    (updated_map sampleK (sample_const "th4")
      (apply_loop sampleK sample_env sample_clash_state sample_type4 true).proof_info
      sample_clash_proofs).map (fun m1 => sample_clash_state.get_proof_builder m1 ()) =
      some (some (expr.app (sample_const "th4") (sample_const "pr2"))) ∧
    ¬ (∀ m a, sample_clash_state1.get_proof_builder m a =
      match updated_map sampleK (sample_const "th4")
        (apply_loop sampleK sample_env sample_clash_state sample_type4 true).proof_info m with
      | none => none
      | some m1 => sample_clash_state.get_proof_builder m1 a) := by
  refine ⟨rfl, by decide, by decide, by decide, by decide, by decide, by decide, ?_⟩
  intro hall
  have h := hall sample_clash_proofs ()
  revert h
  decide


/-! ## The recorded entries are well formed -/

theorem walk_step_one_populated (K : Collab) (env : K.Env) (subst : K.Subst) (gname : name)
    (g : goal) (st : walk_state K) (mvar : expr) :
    ∃ e, (walk_step K env subst gname g st mvar).l = e :: st.l ∧ one_populated e = true := by
  unfold walk_step
  dsimp only
  split
  · exact ⟨_, rfl, rfl⟩
  · split
    · exact ⟨_, rfl, rfl⟩
    · exact ⟨_, rfl, rfl⟩

theorem walk_one_populated (K : Collab) (env : K.Env) (subst : K.Subst) (gname : name)
    (g : goal) (mvars : List expr) (st : walk_state K)
    (e : Option expr × Option proposition_arg)
    (he : e ∈ (walk K env subst gname g st mvars).l) : e ∈ st.l ∨ one_populated e = true := by
  induction mvars generalizing st with
  | nil => exact Or.inl he
  | cons mvar rest ih =>
    simp only [walk, List.foldl_cons] at he ih
    rcases ih _ he with h | h
    · obtain ⟨e1, h1, h2⟩ := walk_step_one_populated K env subst gname g st mvar
      rw [h1] at h
      rcases List.mem_cons.mp h with h3 | h3
      · exact Or.inr (h3 ▸ h2)
      · exact Or.inl h3
    · exact Or.inr h

theorem apply_loop_one_populated (K : Collab) (env : K.Env) (s : proof_state K)
    (th_type : expr) (all : Bool) (p1 : name × arg_list)
    (hp1 : p1 ∈ (apply_loop K env s th_type all).proof_info)
    (e : Option expr × Option proposition_arg) (he : e ∈ p1.2) : one_populated e = true := by
  obtain ⟨g, subst, st0, _, h2, _, _, h5⟩ := apply_loop_from_walk K env s th_type all p1 hp1
  rw [h5] at he
  rcases walk_one_populated K env subst p1.1 g _ st0 e he with h | h
  · rw [h2] at h
    cases h
  · exact h

theorem arg_values_isSome (K : Collab) (m : proof_map) (l : arg_list)
    (hwf : ∀ e ∈ l, one_populated e = true) (hm : ∀ n ∈ consumed_names l, m n ≠ none) :
    (arg_values K m l).isSome = true := by
  induction l with
  | nil => rfl
  | cons p2 l ih =>
    obtain ⟨o1, o2⟩ := p2
    have hl : (arg_values K m l).isSome = true := by
      apply ih (fun e he => hwf e (List.mem_cons_of_mem _ he))
      intro n hn
      apply hm
      cases o1 with
      | some a => simpa [consumed_names] using hn
      | none =>
        cases o2 with
        | none => simpa [consumed_names] using hn
        | some parg => simp [consumed_names, hn]
    obtain ⟨vs, hvs⟩ := Option.isSome_iff_exists.mp hl
    cases o1 with
    | some a => simp [arg_values, arg_value, hvs]
    | none =>
      cases o2 with
      | none =>
        have := hwf (none, none) (List.mem_cons_self _ _)
        simp [one_populated] at this
      | some parg =>
        have hne : m parg.1 ≠ none := hm parg.1 (by simp [consumed_names])
        obtain ⟨pr, hpr⟩ := Option.ne_none_iff_exists'.mp hne
        simp [arg_values, arg_value, find, hpr, hvs]

theorem reconstructed_isSome (K : Collab) (th : expr) (m : proof_map) (l : arg_list)
    (hwf : ∀ e ∈ l, one_populated e = true) (hm : ∀ n ∈ consumed_names l, m n ≠ none) :
    (reconstructed K th m l).isSome = true := by
  obtain ⟨vs, hvs⟩ := Option.isSome_iff_exists.mp (arg_values_isSome K m l hwf hm)
  simp [reconstructed, arg_values_reverse, hvs]

theorem mem_plan_consumed (plan : List (name × arg_list)) (p1 : name × arg_list)
    (hp1 : p1 ∈ plan) (n : name) (hn : n ∈ consumed_names p1.2) : n ∈ plan_consumed plan := by
  induction plan with
  | nil => cases hp1
  | cons q rest ih =>
    simp only [plan_consumed, List.mem_append]
    rcases List.mem_cons.mp hp1 with h | h
    · exact Or.inl (h ▸ hn)
    · exact Or.inr (ih h)

theorem apply_loop_plan_ok (K : Collab) (env : K.Env) (s : proof_state K) (th th_type : expr)
    (all : Bool) (m : proof_map)
    (hm : ∀ n ∈ plan_consumed (apply_loop K env s th_type all).proof_info, m n ≠ none) :
    plan_ok K th m (apply_loop K env s th_type all).proof_info = true := by
  simp only [plan_ok, List.all_eq_true]
  intro p1 hp1
  apply reconstructed_isSome K th m p1.2
  · exact fun e he => apply_loop_one_populated K env s th_type all p1 hp1 e he
  · exact fun n hn => hm n (mem_plan_consumed _ p1 hp1 n hn)

/-- C10 (amended): over two successive successful applications
`s0 → s1 → s2` such that in each the goals of the input state have pairwise
distinct names and no solved goal carries the name of a consumed subgoal,
for every proof map `m` holding a proof for every subgoal consumed by the
second reconstruction plan and every assignment `a`, the second plan can be
reconstructed from `m`, and the proof builder of `s2` on `(m, a)` yields what
the proof builder of `s0` yields on the map of the naive reconstruction: the
subgoal proofs substituted into the second plan and the resulting proofs
into the first (both fail when a proof needed by the first plan is missing). -/
theorem two_step_round_trip (K : Collab) (env : K.Env) (s0 s1 s2 : proof_state K)
    (th1 ty1 : expr) (all1 : Bool) (th2 ty2 : expr) (all2 : Bool)
    (h1 : apply_tactic K env s0 th1 ty1 all1 = some s1)
    (h2 : apply_tactic K env s1 th2 ty2 all2 = some s2)
    (hnd0 : (s0.get_goals.map Prod.fst).Nodup)
    (hfresh1 : ∀ e ∈ (apply_loop K env s0 ty1 all1).proof_info,
      e.1 ∉ plan_consumed (apply_loop K env s0 ty1 all1).proof_info)
    (hnd1 : (s1.get_goals.map Prod.fst).Nodup)
    (hfresh2 : ∀ e ∈ (apply_loop K env s1 ty2 all2).proof_info,
      e.1 ∉ plan_consumed (apply_loop K env s1 ty2 all2).proof_info)
    (m : proof_map)
    (hm : ∀ n ∈ plan_consumed (apply_loop K env s1 ty2 all2).proof_info, m n ≠ none)
    (a : K.Assignment) :
    (∃ m1, updated_map K th2 (apply_loop K env s1 ty2 all2).proof_info m = some m1) ∧
    s2.get_proof_builder m a =
      match naive_reconstruction K th1 (apply_loop K env s0 ty1 all1).proof_info
        th2 (apply_loop K env s1 ty2 all2).proof_info m with
      | none => none
      | some m0 => s0.get_proof_builder m0 a := by
  have hok := apply_loop_plan_ok K env s1 th2 ty2 all2 m hm
  have hupd : updated_map K th2 (apply_loop K env s1 ty2 all2).proof_info m =
      some (overlay_map K th2 (apply_loop K env s1 ty2 all2).proof_info m m) := by
    simp [updated_map, hok]
  refine ⟨⟨_, hupd⟩, ?_⟩
  have e2 := apply_tactic_pb_updated_map K env s1 s2 th2 ty2 all2 h2 hnd1 hfresh2 m a
  have e1 := apply_tactic_pb_updated_map K env s0 s1 th1 ty1 all1 h1 hnd0 hfresh1
    (overlay_map K th2 (apply_loop K env s1 ty2 all2).proof_info m m) a
  rw [hupd] at e2
  simp only [naive_reconstruction, hupd]
  exact e2.trans e1

theorem two_step_round_trip_witness :
    apply_tactic sampleK sample_env sample_state0 (sample_const "th2") sample_type2 false =
      some sample_state1 ∧
    apply_tactic sampleK sample_env sample_state1 (sample_const "th6") sample_type6 false =
      some sample_state2 ∧
    (sample_state0.get_goals.map Prod.fst).Nodup ∧
    (∀ e ∈ (apply_loop sampleK sample_env sample_state0 sample_type2 false).proof_info,
      e.1 ∉ plan_consumed
        (apply_loop sampleK sample_env sample_state0 sample_type2 false).proof_info) ∧
    (sample_state1.get_goals.map Prod.fst).Nodup ∧
    (∀ e ∈ (apply_loop sampleK sample_env sample_state1 sample_type6 false).proof_info,
      e.1 ∉ plan_consumed
        (apply_loop sampleK sample_env sample_state1 sample_type6 false).proof_info) ∧
    (∀ n ∈ plan_consumed
        (apply_loop sampleK sample_env sample_state1 sample_type6 false).proof_info,
      sample_proofs2 n ≠ none) ∧
    sample_state2.get_proof_builder sample_proofs2 () =
      (match naive_reconstruction sampleK (sample_const "th2")
        (apply_loop sampleK sample_env sample_state0 sample_type2 false).proof_info
        (sample_const "th6")
        (apply_loop sampleK sample_env sample_state1 sample_type6 false).proof_info
        sample_proofs2 with
      | none => none
      | some m0 => sample_state0.get_proof_builder m0 ()) ∧
    sample_state2.get_proof_builder sample_proofs2 () =
      some (expr.app (expr.app (sample_const "th2") (sample_const "a"))
        (expr.app (expr.app (sample_const "th6") (sample_const "a")) (sample_const "pr"))) :=
  ⟨rfl, rfl, by decide, by decide, by decide, by decide, by decide,
    (two_step_round_trip sampleK sample_env sample_state0 sample_state1 sample_state2
      (sample_const "th2") sample_type2 false (sample_const "th6") sample_type6 false rfl rfl
      (by decide) (by decide) (by decide) (by decide) sample_proofs2 (by decide) ()).2,
    by decide⟩

/-- C10 (counterexample): `th4 : Pi (h : Q), P` applied with `all = true` to
the state with the goals `g : ⊢ P` and `g.1 : ⊢ P` gives the goals `g.1 : ⊢ Q`
and `g.1.1 : ⊢ Q`; `th5 : Pi (z : A), Q` applied with `all = true` then closes
both (`z` becomes a new metavariable) and spawns no subgoal, so the empty
proof map holds a proof for every subgoal spawned by the second application.
The final proof builder on the empty map fails, while the first proof
builder on the map of the naive reconstruction returns the proof
`th4 (th5 ?m.1)` of `g.1`. -/
theorem two_step_round_trip_name_clash :
    apply_tactic sampleK sample_env sample_clash_state (sample_const "th4") sample_type4 true =
      some sample_clash_state1 ∧
    apply_tactic sampleK sample_env sample_clash_state1 (sample_const "th5") sample_type5 true =
      some sample_clash_state2 ∧
    plan_consumed
      (apply_loop sampleK sample_env sample_clash_state1 sample_type5 true).proof_info = [] ∧
    sample_clash_state2.get_proof_builder (fun _ => none) () = none ∧
    (match naive_reconstruction sampleK (sample_const "th4")
        (apply_loop sampleK sample_env sample_clash_state sample_type4 true).proof_info
        (sample_const "th5")
        (apply_loop sampleK sample_env sample_clash_state1 sample_type5 true).proof_info
        (fun _ => none) with
      | none => none
      | some m0 => sample_clash_state.get_proof_builder m0 ()) =
      some (expr.app (sample_const "th4")
        (expr.app (sample_const "th5") (expr.metavar (name.num (sample_name "m") 1)))) := by
  refine ⟨rfl, rfl, by decide, by decide, by decide⟩


/-- C11: the name-based `apply_tactic` returns no proof state when the name
is not found in the environment or the object found is neither a theorem nor
an axiom; otherwise its result is that of the term-based `apply_tactic` with
the constant `th_name` as the fact, the object's type as the fact's type and
the same flag `all`. -/
theorem apply_tactic_by_name_eq (K : Collab) (find_object : K.Env → name → Option object)
    (env : K.Env) (s : proof_state K) (th_name : name) (all : Bool) :
    (find_object env th_name = none →
      apply_tactic_by_name K find_object env s th_name all = none) ∧
    (∀ obj, find_object env th_name = some obj →
      object.is_theorem obj = false → object.is_axiom obj = false →
      apply_tactic_by_name K find_object env s th_name all = none) ∧
    (∀ obj, find_object env th_name = some obj →
      (object.is_theorem obj = true ∨ object.is_axiom obj = true) →
      apply_tactic_by_name K find_object env s th_name all =
        apply_tactic K env s (mk_constant th_name) (object.get_type obj) all) := by
  refine ⟨?_, ?_, ?_⟩
  · intro h
    simp [apply_tactic_by_name, h]
  · intro obj h h1 h2
    simp [apply_tactic_by_name, h, h1, h2]
  · intro obj h h1
    rcases h1 with h1 | h1 <;> simp [apply_tactic_by_name, h, h1]

theorem apply_tactic_by_name_eq_witness :
    sample_find_object sample_env (sample_name "nothing") = none ∧
    apply_tactic_by_name sampleK sample_find_object sample_env
      (sample_state precision.Precise sample_goals_ab) (sample_name "nothing") true = none ∧
    sample_find_object sample_env (sample_name "def3") = some ⟨false, false, sample_type1⟩ ∧
    apply_tactic_by_name sampleK sample_find_object sample_env
      (sample_state precision.Precise sample_goals_ab) (sample_name "def3") true = none ∧
    sample_find_object sample_env (sample_name "ax2") = some ⟨false, true, sample_type2⟩ ∧
    apply_tactic_by_name sampleK sample_find_object sample_env
      (sample_state precision.Precise sample_goals_ab) (sample_name "ax2") false =
      apply_tactic sampleK sample_env (sample_state precision.Precise sample_goals_ab)
        (mk_constant (sample_name "ax2")) sample_type2 false ∧
    (apply_tactic sampleK sample_env (sample_state precision.Precise sample_goals_ab)
        (mk_constant (sample_name "ax2")) sample_type2 false).isSome = true :=
  ⟨rfl,
    (apply_tactic_by_name_eq sampleK sample_find_object sample_env
      (sample_state precision.Precise sample_goals_ab) (sample_name "nothing") true).1 rfl,
    rfl,
    (apply_tactic_by_name_eq sampleK sample_find_object sample_env
      (sample_state precision.Precise sample_goals_ab) (sample_name "def3") true).2.1 _ rfl
      rfl rfl,
    rfl,
    (apply_tactic_by_name_eq sampleK sample_find_object sample_env
      (sample_state precision.Precise sample_goals_ab) (sample_name "ax2") false).2.2 _ rfl
      (Or.inr rfl),
    by decide⟩

/-- C13: the counterexample builder of a proof state returned by
`apply_tactic` is the counterexample builder of the input state. -/
theorem apply_tactic_cex_builder (K : Collab) (env : K.Env) (s s1 : proof_state K)
    (th th_type : expr) (all : Bool) (h : apply_tactic K env s th th_type all = some s1) :
    s1.get_cex_builder = s.get_cex_builder :=
  (apply_tactic_eq_some K env s s1 th th_type all h).2.2.2.2.2.2

theorem apply_tactic_cex_builder_witness :
    apply_tactic sampleK sample_env sample_state0 (sample_const "th2") sample_type2 false =
      some sample_state1 ∧
    sample_state1.get_cex_builder = sample_state0.get_cex_builder :=
  ⟨rfl, apply_tactic_cex_builder sampleK sample_env sample_state0 sample_state1
    (sample_const "th2") sample_type2 false rfl⟩


/-- C16: in the argument walk, the entry recorded for a placeholder is the
value the unifier gives it if and only if applying the substitution to the
placeholder yields a term different from the placeholder; when the
substitution returns the placeholder itself, the entry is a deferred subgoal
if the domain type is a flexible proposition and the newly allocated
metavariable otherwise, and never the placeholder (the metavariables the
environment allocates being distinct from the placeholders). -/
theorem placeholder_resolution (K : Collab) (env : K.Env) (subst : K.Subst) (gname : name)
    (g : goal) (st : walk_state K) (i : Nat) (hfresh : menv_mk_metavar_fresh K) :
    ∃ e, (walk_step K env subst gname g st (mk_metavar (name.num K.g_tmp_mvar_name i))).l =
        e :: st.l ∧
      (e = (some (K.apply subst (mk_metavar (name.num K.g_tmp_mvar_name i))), none) ↔
        K.apply subst (mk_metavar (name.num K.g_tmp_mvar_name i)) ≠
          mk_metavar (name.num K.g_tmp_mvar_name i)) ∧
      (K.apply subst (mk_metavar (name.num K.g_tmp_mvar_name i)) =
          mk_metavar (name.num K.g_tmp_mvar_name i) →
        (K.is_flex_proposition env (abst_domain st.th_type_c) st.new_menv = true →
          ∃ hs, e = (none, some (name.num gname st.new_goal_idx, hs))) ∧
        (K.is_flex_proposition env (abst_domain st.th_type_c) st.new_menv = false →
          e = (some (K.menv_mk_metavar st.new_menv (abst_domain st.th_type_c)).1, none)) ∧
        e.1 ≠ some (mk_metavar (name.num K.g_tmp_mvar_name i))) := by
  have hne := hfresh st.new_menv (abst_domain st.th_type_c) i
  by_cases hsol : K.apply subst (mk_metavar (name.num K.g_tmp_mvar_name i)) =
      mk_metavar (name.num K.g_tmp_mvar_name i)
  · by_cases hflex : K.is_flex_proposition env (abst_domain st.th_type_c) st.new_menv = true
    · have hl : (walk_step K env subst gname g st (mk_metavar (name.num K.g_tmp_mvar_name i))).l =
          (none, some (name.num gname st.new_goal_idx,
            (open_binders K env st.new_menv (count_pis (abst_domain st.th_type_c))
              ⟨g.get_hypotheses, [], abst_domain st.th_type_c⟩).extra_hs)) :: st.l := by
        simp [walk_step, hsol, hflex]
      refine ⟨_, hl, ?_, ?_⟩
      · simp [hsol]
      · intro _
        refine ⟨fun _ => ⟨_, rfl⟩, fun h => ?_, ?_⟩
        · rw [hflex] at h
          cases h
        · simp
    · have hflex1 : K.is_flex_proposition env (abst_domain st.th_type_c) st.new_menv = false := by
        simpa using hflex
      have hl : (walk_step K env subst gname g st (mk_metavar (name.num K.g_tmp_mvar_name i))).l =
          (some (K.menv_mk_metavar st.new_menv (abst_domain st.th_type_c)).1, none) :: st.l := by
        simp [walk_step, hsol, hflex1]
      refine ⟨_, hl, ?_, ?_⟩
      · simp only [hsol, ne_eq, not_true_eq_false, iff_false, Prod.mk.injEq, and_true,
          Option.some.injEq]
        exact hne
      · intro _
        refine ⟨fun h => absurd h hflex, fun _ => rfl, ?_⟩
        simp only [ne_eq, Option.some.injEq]
        exact hne
  · have hl : (walk_step K env subst gname g st (mk_metavar (name.num K.g_tmp_mvar_name i))).l =
        (some (K.apply subst (mk_metavar (name.num K.g_tmp_mvar_name i))), none) :: st.l := by
      simp [walk_step, hsol]
    refine ⟨_, hl, ?_, ?_⟩
    · simp [hsol]
    · intro h
      exact absurd h hsol


theorem sampleK_mk_metavar_fresh : menv_mk_metavar_fresh sampleK := by
  intro menv t i h
  simp only [sampleK, mk_metavar, expr.metavar.injEq, name.num.injEq, name.str.injEq] at h
  exact absurd h.1.2 (by decide)

theorem placeholder_resolution_witness :
    menv_mk_metavar_fresh sampleK ∧
    ∃ e, (walk_step sampleK sample_env [] (sample_name "g") ⟨[], sample_const "Q"⟩
        sample_walk_state5 (mk_metavar (name.num sampleK.g_tmp_mvar_name 0))).l =
        e :: sample_walk_state5.l ∧
      e = (some (expr.metavar (name.num (sample_name "m") 0)), none) ∧
      e.1 ≠ some (mk_metavar (name.num sampleK.g_tmp_mvar_name 0)) := by
  obtain ⟨e, h1, -, h3⟩ := placeholder_resolution sampleK sample_env [] (sample_name "g")
    ⟨[], sample_const "Q"⟩ sample_walk_state5 0 sampleK_mk_metavar_fresh
  exact ⟨sampleK_mk_metavar_fresh, e, h1, (h3 rfl).2.1 rfl, (h3 rfl).2.2⟩

/-! ## The subgoal of a deferred argument -/

theorem open_binders_arg_type (K : Collab) (env : K.Env) (menv : K.Menv) (fuel : Nat)
    (hs extra : hypotheses) (t : expr) :
    (open_binders K env menv fuel ⟨hs, extra, t⟩).arg_type = opened_type K env menv fuel hs t := by
  induction fuel generalizing hs extra t with
  | zero => simp [open_binders, opened_type]
  | succ n ih =>
    cases t <;> simp [open_binders, opened_type, ih]

theorem open_binders_hs (K : Collab) (env : K.Env) (menv : K.Menv) (hadd : add_hypothesis_extends K)
    (fuel : Nat) (hs extra : hypotheses) (t : expr) :
    (open_binders K env menv fuel ⟨hs, extra, t⟩).hs =
      (opened_hyps K env menv fuel hs t).reverse ++ hs := by
  induction fuel generalizing hs extra t with
  | zero => simp [open_binders, opened_hyps]
  | succ n ih =>
    cases t <;> simp [open_binders, opened_hyps, ih]
    rw [hadd]

/-- C19: every entry of every argument list recorded by `apply_tactic` has
exactly one of its two optionals populated, and each parameter of the fact
yields exactly one entry; so when the proof builder reaches its else-branch
(the first optional is empty) the second optional it dereferences is
populated. -/
theorem recorded_entries_one_populated (K : Collab) (env : K.Env) (s : proof_state K)
    (th_type : expr) (all : Bool) (p1 : name × arg_list)
    (hp1 : p1 ∈ (apply_loop K env s th_type all).proof_info) :
    p1.2.length = count_pis th_type ∧
    (∀ e ∈ p1.2, one_populated e = true ∧
      ((∃ v, e.1 = some v ∧ e.2 = none) ∨ (e.1 = none ∧ ∃ parg, e.2 = some parg))) ∧
    ∀ (m : proof_map) (st : List expr × proof_map), ∀ e ∈ p1.2, e.1 = none →
      ∃ parg, e.2 = some parg ∧
        pb_arg_step K m st e =
          match find m parg.1 with
          | none => none
          | some pr => some (st.1 ++ [abstract_extra K parg.2 pr], st.2.erase parg.1) := by
  have hwf : ∀ e ∈ p1.2, one_populated e = true ∧
      ((∃ v, e.1 = some v ∧ e.2 = none) ∨ (e.1 = none ∧ ∃ parg, e.2 = some parg)) := by
    intro e he
    have h := apply_loop_one_populated K env s th_type all p1 hp1 e he
    refine ⟨h, ?_⟩
    obtain ⟨o1, o2⟩ := e
    cases o1 <;> cases o2 <;> simp [one_populated] at h ⊢
  refine ⟨?_, hwf, ?_⟩
  · obtain ⟨g, subst, st0, _, h2, _, _, h5⟩ := apply_loop_from_walk K env s th_type all p1 hp1
    obtain ⟨front, hf1, hf2⟩ := walk_l K env subst p1.1 g (mk_mvars K (count_pis th_type)) st0
    rw [h5, hf1, h2, List.append_nil, hf2, mk_mvars_length]
  · intro m st e he h1
    rcases (hwf e he).2 with ⟨v, hv, _⟩ | ⟨_, parg, hparg⟩
    · rw [hv] at h1
      cases h1
    · refine ⟨parg, hparg, ?_⟩
      cases hf : find m parg.1 with
      | none => simp [pb_arg_step, h1, hparg, hf]
      | some pr => simp [pb_arg_step, h1, hparg, hf]

theorem recorded_entries_one_populated_witness :
    (sample_name "g1", [(none, some (name.num (sample_name "g1") 1, [])),
        (some (sample_const "a"), none)]) ∈
      (apply_loop sampleK sample_env
        (sample_state precision.Precise [(sample_name "g1", sample_goal "a")])
        sample_type2 false).proof_info ∧
    [(none, some (name.num (sample_name "g1") 1, ([] : hypotheses))),
      (some (sample_const "a"), none)].length = count_pis sample_type2 ∧
    ∀ e ∈ [((none : Option expr), some (name.num (sample_name "g1") 1, ([] : hypotheses))),
      (some (sample_const "a"), none)], one_populated e = true :=
  ⟨by decide,
    (recorded_entries_one_populated sampleK sample_env
      (sample_state precision.Precise [(sample_name "g1", sample_goal "a")])
      sample_type2 false (sample_name "g1", [(none, some (name.num (sample_name "g1") 1, [])),
        (some (sample_const "a"), none)]) (by decide)).1,
    fun e he => ((recorded_entries_one_populated sampleK sample_env
      (sample_state precision.Precise [(sample_name "g1", sample_goal "a")])
      sample_type2 false (sample_name "g1", [(none, some (name.num (sample_name "g1") 1, [])),
        (some (sample_const "a"), none)]) (by decide)).2.1 e he).1⟩


/-- One step of the placeholder walk on an unresolved parameter whose domain
is a flexible proposition: the subgoal it appends, and the next index. -/
theorem walk_step_spawned_goal (K : Collab) (env : K.Env) (subst : K.Subst) (gname : name)
    (g : goal) (st : walk_state K) (mvar : expr) (hadd : add_hypothesis_extends K)
    (hsol : K.apply subst mvar = mvar)
    (hflex : K.is_flex_proposition env (abst_domain st.th_type_c) st.new_menv = true) :
    (walk_step K env subst gname g st mvar).new_goals_buf =
      st.new_goals_buf ++ [(name.num gname st.new_goal_idx,
        ⟨(opened_hyps K env st.new_menv (count_pis (abst_domain st.th_type_c)) g.get_hypotheses
            (abst_domain st.th_type_c)).reverse ++ g.get_hypotheses,
          opened_type K env st.new_menv (count_pis (abst_domain st.th_type_c)) g.get_hypotheses
            (abst_domain st.th_type_c)⟩)] := by
  simp only [walk_step, hsol, ne_eq, not_true_eq_false, if_false, hflex, if_true,
    open_binders_arg_type, open_binders_hs K env st.new_menv hadd]

/-- The index of the next subgoal counts the entries recorded so far as
deferred subgoals: one step of the walk. -/
theorem walk_step_deferred_count (K : Collab) (env : K.Env) (subst : K.Subst) (gname : name)
    (g : goal) (st : walk_state K) (mvar : expr) :
    (walk_step K env subst gname g st mvar).new_goal_idx +
        (st.l.filter (fun e => e.2.isSome)).length =
      st.new_goal_idx +
        ((walk_step K env subst gname g st mvar).l.filter (fun e => e.2.isSome)).length := by
  unfold walk_step
  dsimp only
  split
  · simp
  · split
    · simp
      omega
    · simp

/-- The index of the next subgoal counts the entries recorded so far as
deferred subgoals. -/
theorem walk_deferred_count (K : Collab) (env : K.Env) (subst : K.Subst) (gname : name)
    (g : goal) (mvars : List expr) (st : walk_state K) :
    (walk K env subst gname g st mvars).new_goal_idx +
        (st.l.filter (fun e => e.2.isSome)).length =
      st.new_goal_idx +
        ((walk K env subst gname g st mvars).l.filter (fun e => e.2.isSome)).length := by
  induction mvars generalizing st with
  | nil => rfl
  | cons mvar rest ih =>
    have h1 := ih (walk_step K env subst gname g st mvar)
    have h2 := walk_step_deferred_count K env subst gname g st mvar
    simp only [walk, List.foldl_cons] at h1 ⊢
    omega

/-- One step of the goal loop only appends to the goal buffer. -/
theorem goal_step_buf_prefix (K : Collab) (env : K.Env) (th_type : expr) (mvars : List expr)
    (all : Bool) (st : loop_state K) (p : name × goal) :
    ∃ rest, (goal_step K env th_type mvars all st p).new_goals_buf =
      st.new_goals_buf ++ rest := by
  unfold goal_step
  split
  · split
    · rename_i subst _
      obtain ⟨new, h1, _, _⟩ := walk_names K env subst p.1 p.2 mvars (walk_init K th_type st)
      exact ⟨new, h1⟩
    · exact ⟨[p], rfl⟩
  · exact ⟨[p], rfl⟩

/-- The goal loop only appends to the goal buffer. -/
theorem foldl_goal_step_buf_prefix (K : Collab) (env : K.Env) (th_type : expr)
    (mvars : List expr) (all : Bool) (gs : goals) (st : loop_state K) :
    ∃ rest, (gs.foldl (goal_step K env th_type mvars all) st).new_goals_buf =
      st.new_goals_buf ++ rest := by
  induction gs generalizing st with
  | nil => exact ⟨[], by simp⟩
  | cons p gs ih =>
    obtain ⟨r2, h2⟩ := ih (goal_step K env th_type mvars all st p)
    obtain ⟨r1, h1⟩ := goal_step_buf_prefix K env th_type mvars all st p
    refine ⟨r1 ++ r2, ?_⟩
    rw [List.foldl_cons, h2, h1, List.append_assoc]

/-- C17: let `apply_tactic` return `s1`, let the goal loop of lines 57-109
reach the goal `gname` with hypotheses `g.get_hypotheses` in the state `st`
and unify it (`subst`), and let the walk of lines 69-101, started by lines
66-68 (`walk_init`), reach the parameter at position `i` in the state `w`.
When that parameter is unresolved and its domain is a flexible proposition,
the returned state holds, right after the goals the loop had collected before
`gname` and the subgoals `earlier` spawned for the earlier parameters of
`gname`, a subgoal named `(gname, j)` with `j = earlier.length + 1`; `j - 1`
is the number of earlier parameters of this goal recorded as deferred
subgoals, so the count restarts at 1 for each unified goal and skips the
parameters that spawn nothing.  The hypotheses of the subgoal are those of
`gname` extended with exactly the hypotheses opened from the domain of this
parameter (last opened first), whatever was opened for the subgoals
`earlier`; its conclusion is the domain after all its leading Pi binders have
been opened. -/
theorem spawned_subgoal_shape (K : Collab) (env : K.Env) (s s1 : proof_state K)
    (th th_type : expr) (all : Bool) (hadd : add_hypothesis_extends K)
    (h : apply_tactic K env s th th_type all = some s1)
    (pre post : goals) (gname : name) (g : goal) (subst : K.Subst)
    (hgs : s.get_goals = pre ++ (gname, g) :: post)
    (st : loop_state K)
    (hst : pre.foldl (goal_step K env th_type (mk_mvars K (count_pis th_type)) all)
      (loop_init K s.get_menv th_type) = st)
    (hgo : (all || !st.found) = true)
    (hu : K.fo_unify st.th_type_c g.get_conclusion = some subst)
    (i : Nat) (mvar : expr) (hi : (mk_mvars K (count_pis th_type))[i]? = some mvar)
    (w : walk_state K)
    (hw : walk K env subst gname g (walk_init K th_type st)
      ((mk_mvars K (count_pis th_type)).take i) = w)
    (hsol : K.apply subst mvar = mvar)
    (hflex : K.is_flex_proposition env (abst_domain w.th_type_c) w.new_menv = true) :
    ∃ earlier : goals,
      w.new_goals_buf = st.new_goals_buf ++ earlier ∧
      earlier.length = (w.l.filter (fun e => e.2.isSome)).length ∧
      s1.get_goals[st.new_goals_buf.length + earlier.length]? =
        some (name.num gname (earlier.length + 1),
          ⟨(opened_hyps K env w.new_menv (count_pis (abst_domain w.th_type_c)) g.get_hypotheses
              (abst_domain w.th_type_c)).reverse ++ g.get_hypotheses,
            opened_type K env w.new_menv (count_pis (abst_domain w.th_type_c)) g.get_hypotheses
              (abst_domain w.th_type_c)⟩) ∧
      is_pi (opened_type K env w.new_menv (count_pis (abst_domain w.th_type_c)) g.get_hypotheses
        (abst_domain w.th_type_c)) = false ∧
      (opened_hyps K env w.new_menv (count_pis (abst_domain w.th_type_c)) g.get_hypotheses
        (abst_domain w.th_type_c)).length = count_pis (abst_domain w.th_type_c) := by
  obtain ⟨earlier, he1, he2, -⟩ := walk_names K env subst gname g
    ((mk_mvars K (count_pis th_type)).take i) (walk_init K th_type st)
  rw [hw] at he1 he2
  replace he1 : w.new_goals_buf = st.new_goals_buf ++ earlier := he1
  have hcount := walk_deferred_count K env subst gname g
    ((mk_mvars K (count_pis th_type)).take i) (walk_init K th_type st)
  rw [hw] at hcount
  have hidx : w.new_goal_idx = earlier.length + 1 := by
    rw [he2]
    simp only [walk_init]
    omega
  have hlen : i < (mk_mvars K (count_pis th_type)).length := by
    rcases Nat.lt_or_ge i (mk_mvars K (count_pis th_type)).length with hlt | hge
    · exact hlt
    · rw [List.getElem?_eq_none hge] at hi
      cases hi
  have hmv : (mk_mvars K (count_pis th_type))[i] = mvar := by
    rw [List.getElem?_eq_getElem hlen] at hi
    exact Option.some.inj hi
  have hsplit : mk_mvars K (count_pis th_type) =
      (mk_mvars K (count_pis th_type)).take i ++
        mvar :: (mk_mvars K (count_pis th_type)).drop (i + 1) := by
    rw [← hmv, ← List.drop_eq_getElem_cons hlen, List.take_append_drop]
  have hwalk : (walk K env subst gname g (walk_init K th_type st)
      (mk_mvars K (count_pis th_type))) =
      walk K env subst gname g (walk_step K env subst gname g w mvar)
        ((mk_mvars K (count_pis th_type)).drop (i + 1)) := by
    conv => lhs; rw [hsplit]
    rw [walk_append, hw]
    simp only [walk, List.foldl_cons]
  obtain ⟨later, hl1, -, -⟩ := walk_names K env subst gname g
    ((mk_mvars K (count_pis th_type)).drop (i + 1)) (walk_step K env subst gname g w mvar)
  have hstep : (goal_step K env th_type (mk_mvars K (count_pis th_type)) all st
      (gname, g)).new_goals_buf =
      (walk K env subst gname g (walk_init K th_type st)
        (mk_mvars K (count_pis th_type))).new_goals_buf := by
    simp only [goal_step, hgo, if_true, hu]
  obtain ⟨rest, hrest⟩ := foldl_goal_step_buf_prefix K env th_type
    (mk_mvars K (count_pis th_type)) all post
    (goal_step K env th_type (mk_mvars K (count_pis th_type)) all st (gname, g))
  have hgoals : s1.get_goals = (st.new_goals_buf ++ earlier) ++
      ((name.num gname (earlier.length + 1),
        (⟨(opened_hyps K env w.new_menv (count_pis (abst_domain w.th_type_c)) g.get_hypotheses
              (abst_domain w.th_type_c)).reverse ++ g.get_hypotheses,
            opened_type K env w.new_menv (count_pis (abst_domain w.th_type_c)) g.get_hypotheses
              (abst_domain w.th_type_c)⟩ : goal)) :: (later ++ rest)) := by
    rw [(apply_tactic_eq_some K env s s1 th th_type all h).2.2.1]
    unfold apply_loop
    rw [hgs, List.foldl_append, List.foldl_cons, hst, hrest, hstep, hwalk, hl1,
      walk_step_spawned_goal K env subst gname g w mvar hadd hsol hflex, he1, hidx]
    simp only [List.append_assoc, List.singleton_append, List.cons_append, List.nil_append]
  refine ⟨earlier, he1, ?_, ?_, ?_, opened_hyps_length K env _ _ _ _ rfl⟩
  · simp only [walk_init, List.filter_nil, List.length_nil] at hcount
    omega
  · rw [hgoals, List.getElem?_append_right (by simp)]
    simp
  · rw [← open_binders_arg_type K env w.new_menv _ g.get_hypotheses []]
    exact open_binders_not_pi K env w.new_menv _ _ _ _ rfl


theorem spawned_subgoal_shape_witness :
    add_hypothesis_extends sampleK ∧
    apply_tactic sampleK sample_env sample_state7 (sample_const "th7") sample_type7 true =
      some (sample_state7_after true) ∧
    sample_state7.get_goals =
      [(sample_name "g0", ⟨[], expr.app (sample_const "Q") (sample_const "a")⟩)] ++
        (sample_name "g1", sample_goal_h0) ::
          [(sample_name "g2", sample_goal "a"), (sample_name "g3", sample_goal "b")] ∧
    (sample_state7_after true).get_goals[2]? =
      some (name.num (sample_name "g1") 2,
        ⟨[(sample_name "y", sample_const "B"), (sample_name "h0", sample_const "H0")],
          expr.app (expr.app (sample_const "R") (sample_const "a"))
            (expr.constant_typed (sample_name "y") (sample_const "B"))⟩) := by
  obtain ⟨earlier, -, h2, h3, -, -⟩ := spawned_subgoal_shape sampleK sample_env sample_state7
    (sample_state7_after true) (sample_const "th7") sample_type7 true (fun _ _ _ => rfl) rfl
    [(sample_name "g0", ⟨[], expr.app (sample_const "Q") (sample_const "a")⟩)]
    [(sample_name "g2", sample_goal "a"), (sample_name "g3", sample_goal "b")]
    (sample_name "g1") sample_goal_h0 sample_subst_a rfl _ rfl rfl rfl 2
    (mk_metavar (name.num sampleK.g_tmp_mvar_name 2)) rfl _ rfl rfl rfl
  have hlen : earlier.length = 1 := h2
  rw [hlen] at h3
  exact ⟨fun _ _ _ => rfl, rfl, rfl, h3⟩



/-! ## The names of the goals of the returned state -/

theorem name_num_injective (p q : name) (i j : Nat) (h : name.num p i = name.num q j) :
    p = q ∧ i = j := by
  injection h with h1 h2
  exact ⟨h1, h2⟩

/-- What one step of the goal loop appends to the goal buffer: the goal
itself, or subgoals named after it with the indices `1, 2, ...`. -/
theorem goal_step_buf_names (K : Collab) (env : K.Env) (th_type : expr) (mvars : List expr)
    (all : Bool) (st : loop_state K) (p : name × goal) :
    (goal_step K env th_type mvars all st p).new_goals_buf.map Prod.fst =
        st.new_goals_buf.map Prod.fst ++ [p.1] ∨
    ∃ k, (goal_step K env th_type mvars all st p).new_goals_buf.map Prod.fst =
        st.new_goals_buf.map Prod.fst ++ (List.range k).map (fun j => name.num p.1 (1 + j)) := by
  unfold goal_step
  split
  · split
    · rename_i subst _
      right
      obtain ⟨new, h1, _, h3⟩ := walk_names K env subst p.1 p.2 mvars (walk_init K th_type st)
      refine ⟨new.length, ?_⟩
      dsimp only
      rw [h1, List.map_append, h3]
      rfl
    · left
      simp
  · left
    simp

/-- The goal loop keeps the names of the goal buffer pairwise distinct, when
the names `N` of the goals of the input state are pairwise distinct and none
of them is another one extended by an index. -/
theorem foldl_goal_step_names_nodup (K : Collab) (env : K.Env) (th_type : expr)
    (mvars : List expr) (all : Bool) (N : List name) (hN : N.Nodup)
    (hext : ∀ a ∈ N, ∀ b ∈ N, ∀ j, a ≠ name.num b j)
    (gs : goals) (done : List name) (st : loop_state K)
    (hsplit : done ++ gs.map Prod.fst = N)
    (hnd : (st.new_goals_buf.map Prod.fst).Nodup)
    (hfrom : ∀ n ∈ st.new_goals_buf.map Prod.fst,
      n ∈ done ∨ ∃ q ∈ done, ∃ j, n = name.num q j) :
    ((gs.foldl (goal_step K env th_type mvars all) st).new_goals_buf.map Prod.fst).Nodup := by
  induction gs generalizing done st with
  | nil => exact hnd
  | cons p gs ih =>
    simp only [List.foldl_cons]
    have hpN : p.1 ∈ N := by
      rw [← hsplit]
      simp
    have hdoneN : ∀ q ∈ done, q ∈ N := by
      intro q hq
      rw [← hsplit]
      exact List.mem_append_left _ hq
    have hpdone : p.1 ∉ done := by
      intro hmem
      rw [← hsplit] at hN
      have := (List.nodup_append.mp hN).2.2
      exact this hmem (by simp)
    have hpbuf : p.1 ∉ st.new_goals_buf.map Prod.fst := by
      intro hmem
      rcases hfrom _ hmem with h | ⟨q, hq, j, hj⟩
      · exact hpdone h
      · exact hext p.1 hpN q (hdoneN q hq) j hj
    apply ih (done ++ [p.1])
    · rw [← hsplit]
      simp
    · rcases goal_step_buf_names K env th_type mvars all st p with h | ⟨k, h⟩
      · rw [h]
        apply List.Nodup.append hnd (List.nodup_singleton _)
        intro n hn1 hn2
        simp only [List.mem_singleton] at hn2
        exact hpbuf (hn2 ▸ hn1)
      · rw [h]
        apply List.Nodup.append hnd
        · apply List.Nodup.map _ (List.nodup_range k)
          intro i j hij
          have := (name_num_injective _ _ _ _ hij).2
          omega
        · intro n hn1 hn2
          obtain ⟨i, _, hi⟩ := List.mem_map.mp hn2
          rcases hfrom _ hn1 with h1 | ⟨q, hq, j, hj⟩
          · exact hext n (hdoneN n h1) p.1 hpN (1 + i) hi.symm
          · rw [hj] at hi
            have := (name_num_injective _ _ _ _ hi).1
            exact hpdone (this ▸ hq)
    · intro n hn
      rcases goal_step_buf_names K env th_type mvars all st p with h | ⟨k, h⟩
      · rw [h] at hn
        rcases List.mem_append.mp hn with h1 | h1
        · rcases hfrom n h1 with h2 | ⟨q, hq, j, hj⟩
          · exact Or.inl (List.mem_append_left _ h2)
          · exact Or.inr ⟨q, List.mem_append_left _ hq, j, hj⟩
        · simp only [List.mem_singleton] at h1
          exact Or.inl (by simp [h1])
      · rw [h] at hn
        rcases List.mem_append.mp hn with h1 | h1
        · rcases hfrom n h1 with h2 | ⟨q, hq, j, hj⟩
          · exact Or.inl (List.mem_append_left _ h2)
          · exact Or.inr ⟨q, List.mem_append_left _ hq, j, hj⟩
        · obtain ⟨i, _, hi⟩ := List.mem_map.mp h1
          exact Or.inr ⟨p.1, by simp, 1 + i, hi.symm⟩

/-- C18 (amended): for every input state whose goal names are pairwise
distinct and in which no goal's name is the name of another goal extended by
an index, the goal names of any state returned by `apply_tactic` are
pairwise distinct. -/
theorem returned_goal_names_nodup (K : Collab) (env : K.Env) (s s1 : proof_state K)
    (th th_type : expr) (all : Bool) (h : apply_tactic K env s th th_type all = some s1)
    (hnd : (s.get_goals.map Prod.fst).Nodup)
    (hext : ∀ a ∈ s.get_goals.map Prod.fst, ∀ b ∈ s.get_goals.map Prod.fst, ∀ j,
      a ≠ name.num b j) :
    (s1.get_goals.map Prod.fst).Nodup := by
  rw [(apply_tactic_eq_some K env s s1 th th_type all h).2.2.1]
  unfold apply_loop
  exact foldl_goal_step_names_nodup K env th_type _ all _ hnd hext s.get_goals []
    (loop_init K s.get_menv th_type) (by simp) (by simp [loop_init]) (by simp [loop_init])

/-- C18 (counterexample): the state `sample_clash_state` has the goals
`g : ⊢ P` and `g.1 : ⊢ P`, of distinct names; `th4 : Pi (h : Q), P` applied with
`all = false` solves `g`, spawns the subgoal `g.1 : ⊢ Q` and carries the
original goal `g.1 : ⊢ P` over: two goals of the returned state are named
`g.1`. -/
theorem returned_goal_names_clash :
    (sample_clash_state.get_goals.map Prod.fst).Nodup ∧
    (apply_tactic sampleK sample_env sample_clash_state (sample_const "th4") sample_type4
      false).map (fun s1 => s1.get_goals) =
      some [(name.num (sample_name "g") 1, ⟨[], sample_const "Q"⟩),
        (name.num (sample_name "g") 1, ⟨[], sample_const "P"⟩)] ∧
    ¬ (([(name.num (sample_name "g") 1, (⟨[], sample_const "Q"⟩ : goal)),
        (name.num (sample_name "g") 1, ⟨[], sample_const "P"⟩)]).map Prod.fst).Nodup := by
  refine ⟨by decide, by decide, by decide⟩


theorem returned_goal_names_nodup_witness :
    apply_tactic sampleK sample_env sample_state7 (sample_const "th7") sample_type7 true =
      some (sample_state7_after true) ∧
    sample_state7.get_goals.map Prod.fst =
      [sample_name "g0", sample_name "g1", sample_name "g2", sample_name "g3"] ∧
    (sample_state7.get_goals.map Prod.fst).Nodup ∧
    (∀ a ∈ sample_state7.get_goals.map Prod.fst, ∀ b ∈ sample_state7.get_goals.map Prod.fst,
      ∀ j, a ≠ name.num b j) ∧
    (sample_state7_after true).get_goals.map Prod.fst =
      [sample_name "g0", name.num (sample_name "g1") 1, name.num (sample_name "g1") 2,
        name.num (sample_name "g2") 1, name.num (sample_name "g2") 2,
        name.num (sample_name "g3") 1, name.num (sample_name "g3") 2] ∧
    ((sample_state7_after true).get_goals.map Prod.fst).Nodup := by
  have hnames : sample_state7.get_goals.map Prod.fst =
      [sample_name "g0", sample_name "g1", sample_name "g2", sample_name "g3"] := by decide
  have hext : ∀ a ∈ sample_state7.get_goals.map Prod.fst,
      ∀ b ∈ sample_state7.get_goals.map Prod.fst, ∀ j, a ≠ name.num b j := by
    intro a ha b _ j
    rw [hnames] at ha
    simp only [List.mem_cons, List.mem_singleton, List.not_mem_nil, or_false] at ha
    rcases ha with h | h | h | h <;>
    · rw [h]
      intro hh
      cases hh
  exact ⟨rfl, hnames, by decide, hext, by decide,
    returned_goal_names_nodup sampleK sample_env sample_state7 (sample_state7_after true)
      (sample_const "th7") sample_type7 true rfl (by decide) hext⟩



/-! ## The caller's proof state -/

theorem apply_tactic_store_cell (K : Collab) (env : K.Env) (h : menv_store K)
    (s : proof_state_ref K) (th th_type : expr) (all : Bool) (r : Nat) (hr : r < h.next) :
    (apply_tactic_store K env h s th th_type all).1.cell r = h.cell r := by
  have hne : r ≠ h.next := Nat.ne_of_lt hr
  unfold apply_tactic_store
  split
  · rfl
  · split
    · rfl
    · dsimp only
      split <;> simp [menv_store.update, menv_store.copy, hne]

/-- C12: `apply_tactic` never changes the caller's proof state.  On a store
of metavariable environments in which the handle of the input state is in
use, every cell in use before the call has the same content after it, so the
input state read through the store (goal list, metavariable environment,
precision and builders) is the same after the call as before, whether a
state is returned or not; the environment of a returned state is the new
cell made by the copy, not the caller's cell; and what is returned is the
result of `apply_tactic` on the input state as read before the call. -/
theorem apply_tactic_store_frame (K : Collab) (env : K.Env) (h : menv_store K)
    (s : proof_state_ref K) (th th_type : expr) (all : Bool) (hwf : s.get_menv < h.next) :
    (∀ r, r < h.next → (apply_tactic_store K env h s th th_type all).1.cell r = h.cell r) ∧
    (apply_tactic_store K env h s th th_type all).1.read s = h.read s ∧
    (∀ s1, (apply_tactic_store K env h s th th_type all).2 = some s1 →
      s1.get_menv = h.next ∧ s1.get_menv ≠ s.get_menv) ∧
    ∀ sv, h.read s = some sv →
      (match (apply_tactic_store K env h s th th_type all).2 with
        | none => none
        | some s1 => (apply_tactic_store K env h s th th_type all).1.read s1) =
      apply_tactic K env sv th th_type all := by
  have hcell := apply_tactic_store_cell K env h s th th_type all
  refine ⟨hcell, ?_, ?_, ?_⟩
  · simp only [menv_store.read, hcell _ hwf]
  · intro s1 h1
    unfold apply_tactic_store at h1
    split at h1
    · cases h1
    · split at h1
      · cases h1
      · dsimp only at h1
        split at h1
        · simp only [Option.some.injEq] at h1
          subst h1
          exact ⟨rfl, fun hh => absurd (hh ▸ hwf) (Nat.lt_irrefl _)⟩
        · cases h1
  · intro sv hsv
    have hprec : sv.get_precision = s.get_precision := by
      unfold menv_store.read at hsv
      split at hsv
      · cases hsv
      · cases hsv
        rfl
    have hpb : sv.get_proof_builder = s.get_proof_builder := by
      unfold menv_store.read at hsv
      split at hsv
      · cases hsv
      · cases hsv
        rfl
    have hcex : sv.get_cex_builder = s.get_cex_builder := by
      unfold menv_store.read at hsv
      split at hsv
      · cases hsv
      · cases hsv
        rfl
    unfold apply_tactic_store apply_tactic
    rw [hprec]
    by_cases hp : s.get_precision ≠ precision.Precise ∧ s.get_precision ≠ precision.Over
    · simp only [if_pos hp]
    · simp only [if_neg hp, hsv]
      by_cases hf : (apply_loop K env sv th_type all).found = true
      · simp only [if_pos hf, menv_store.read, menv_store.update, menv_store.copy, hpb, hcex,
          if_true]
      · simp only [if_neg hf]

theorem apply_tactic_store_frame_witness :
    sample_state_ref.get_menv < sample_store.next ∧
    (apply_tactic_store sampleK sample_env sample_store sample_state_ref (sample_const "th5")
      sample_type5 false).1.cell 0 = some (0 : Nat) ∧
    (apply_tactic_store sampleK sample_env sample_store sample_state_ref (sample_const "th5")
      sample_type5 false).1.cell 1 = some (1 : Nat) ∧
    (apply_tactic_store sampleK sample_env sample_store sample_state_ref (sample_const "th5")
      sample_type5 false).2.map (fun s1 => s1.get_menv) = some 1 ∧
    (apply_tactic_store sampleK sample_env sample_store sample_state_ref (sample_const "th5")
      sample_type5 false).1.read sample_state_ref = sample_store.read sample_state_ref :=
  ⟨by decide, rfl, rfl, rfl,
    (apply_tactic_store_frame sampleK sample_env sample_store sample_state_ref
      (sample_const "th5") sample_type5 false (by decide)).2.1⟩


/-! ## Function information -/

theorem of_bit_to_bit (b : Bool) : of_bit (to_bit b) = b := by
  cases b <;> rfl

/-- C20: the `param_info` built from the booleans `spec`, `imp`, `inst_imp`,
`prop`, `sub`, `is_dep` and the list `deps` returns exactly those values from
`specialized()`, `is_implicit()`, `is_inst_implicit()`, `is_prop()`,
`is_subsingleton()`, `is_dep()` and `get_dependencies()`: the one-bit packing
loses nothing and no two flags are swapped.  Likewise `fun_info(arity, info,
deps)` returns its three arguments from its accessors, and the default
`fun_info` has arity 0 and empty parameter and result-dependency lists. -/
theorem param_info_accessors (spec imp inst_imp prop sub is_dep : Bool) (deps : List Nat)
    (arity : Nat) (info : List param_info) (rdeps : List Nat) :
    (mk_param_info spec imp inst_imp prop sub is_dep deps).specialized = spec ∧
    (mk_param_info spec imp inst_imp prop sub is_dep deps).is_implicit = imp ∧
    (mk_param_info spec imp inst_imp prop sub is_dep deps).is_inst_implicit = inst_imp ∧
    (mk_param_info spec imp inst_imp prop sub is_dep deps).is_prop = prop ∧
    (mk_param_info spec imp inst_imp prop sub is_dep deps).is_subsingleton = sub ∧
    (mk_param_info spec imp inst_imp prop sub is_dep deps).is_dep = is_dep ∧
    (mk_param_info spec imp inst_imp prop sub is_dep deps).get_dependencies = deps ∧
    (mk_fun_info arity info rdeps).get_arity = arity ∧
    (mk_fun_info arity info rdeps).get_params_info = info ∧
    (mk_fun_info arity info rdeps).get_result_dependencies = rdeps ∧
    default_fun_info.get_arity = 0 ∧
    default_fun_info.get_params_info = [] ∧
    default_fun_info.get_result_dependencies = [] := by
  refine ⟨?_, ?_, ?_, ?_, ?_, ?_, rfl, rfl, rfl, rfl, rfl, rfl, rfl⟩ <;>
    simp [mk_param_info, param_info.specialized, param_info.is_implicit,
      param_info.is_inst_implicit, param_info.is_prop, param_info.is_subsingleton,
      param_info.is_dep, of_bit_to_bit]

theorem collect_deps_lt (e : expr) (locals : List expr) (d : Nat)
    (h : d ∈ fun_info_manager.collect_deps e locals) : d < locals.length := by
  simp only [fun_info_manager.collect_deps, List.mem_filter, List.mem_range] at h
  exact h.1

theorem strip_length (T : type_context) (n : Nat) (t : expr) (locals : List expr)
    (h : count_pis t = n) : (fun_info_manager.strip T n t locals).1.length = n := by
  induction n generalizing t locals with
  | zero => cases t <;> simp [fun_info_manager.strip]
  | succ n ih =>
    cases t <;> simp [count_pis] at h
    rename_i x d b
    simp only [fun_info_manager.strip, List.length_cons, Nat.add_right_cancel_iff]
    apply ih
    rw [T.instantiate_local_pis, h]

theorem strip_deps_lt (T : type_context) (fuel : Nat) (t : expr) (locals : List expr)
    (i : Nat) (p : param_data) (hp : (fun_info_manager.strip T fuel t locals).1[i]? = some p)
    (d : Nat) (hd : d ∈ p.deps) : d < locals.length + i := by
  induction fuel generalizing t locals i with
  | zero => cases t <;> simp [fun_info_manager.strip] at hp
  | succ n ih =>
    cases t <;> try (simp [fun_info_manager.strip] at hp; done)
    rename_i x dom b
    simp only [fun_info_manager.strip] at hp
    cases i with
    | zero =>
      simp only [List.getElem?_cons_zero, Option.some.injEq] at hp
      subst hp
      simpa using collect_deps_lt _ _ _ hd
    | succ j =>
      simp only [List.getElem?_cons_succ] at hp
      have := ih _ _ j hp
      simp only [List.length_append, List.length_singleton] at this
      omega

theorem mk_params_length (data : List param_data) (rdeps : List Nat) (k : Nat)
    (rest : List param_data) :
    (fun_info_manager.mk_params data rdeps k rest).length = rest.length := by
  induction rest generalizing k with
  | nil => rfl
  | cons p rest ih => simp [fun_info_manager.mk_params, ih]

theorem mk_params_get (data : List param_data) (rdeps : List Nat) (k : Nat)
    (rest : List param_data) (i : Nat) (q : param_info)
    (hq : (fun_info_manager.mk_params data rdeps k rest)[i]? = some q) :
    ∃ p, rest[i]? = some p ∧ q.get_dependencies = p.deps := by
  induction rest generalizing k i with
  | nil => simp [fun_info_manager.mk_params] at hq
  | cons p rest ih =>
    cases i with
    | zero =>
      simp only [fun_info_manager.mk_params, List.getElem?_cons_zero, Option.some.injEq] at hq
      subst hq
      exact ⟨p, by simp, rfl⟩
    | succ j =>
      simp only [fun_info_manager.mk_params, List.getElem?_cons_succ] at hq
      simpa using ih (k + 1) j hq

/-- C14: for every function term `fn` whose type is `Pi a1 ... an, R`,
`fun_info_manager::get(fn)` has arity `n` and one `param_info` per parameter,
and the dependency list of the parameter at position `i` contains only
positions strictly less than `i`. -/
theorem get_arity_and_dependencies (T : type_context) (fn : expr) :
    (fun_info_manager.get T fn).get_arity = count_pis (T.infer fn) ∧
    (fun_info_manager.get T fn).get_params_info.length = count_pis (T.infer fn) ∧
    ∀ (i : Nat) (p : param_info), (fun_info_manager.get T fn).get_params_info[i]? = some p →
      ∀ d ∈ p.get_dependencies, d < i := by
  have hlen := strip_length T (count_pis (T.infer fn)) (T.infer fn) [] rfl
  refine ⟨?_, ?_, ?_⟩
  · simp only [fun_info_manager.get, mk_fun_info, fun_info.get_arity, hlen]
  · simp only [fun_info_manager.get, mk_fun_info, fun_info.get_params_info, mk_params_length,
      hlen]
  · intro i p hp d hd
    simp only [fun_info_manager.get, mk_fun_info, fun_info.get_params_info] at hp
    obtain ⟨q, hq1, hq2⟩ := mk_params_get _ _ _ _ i p hp
    rw [hq2] at hd
    simpa using strip_deps_lt T _ _ [] i q hq1 d hd
